import Mathlib

/-!
Verification of the side-channel-resistant SPHINCS+ core.

This file gives a shallow embedding of the repository's core C sources:

* `src/ref/fips202-threshold.c` — the 3-share threshold Keccak-p[1600,24]
  permutation (`do_threshold_keccak_permutation`);
* `src/ref/f-threshold.c` — the F-chain driver over the persistent chain
  state (`set_up_f_block`, `increment_hash_addr_in_chain_state`,
  `f_transform`);
* `src/ref/wotsx1.c` — the WOTS chain loop;
* `src/ref/prf.c` — the PRF 4-ary tree (`eval_single_prf_leaf`, the PRF
  iterator `initialize_prf_iter` / `next_prf_iter`, and
  `initialize_prf_key`).

Machine integers (uint64_t lanes) are embedded as `Nat` with explicit
`% 2 ^ 64` wherever C arithmetic wraps; byte buffers and lane arrays are
embedded as functions `Nat → Nat`.  External collaborators that are not
part of `src/` (`params.h` constants, the `address.h` field setters, the
masked PRF hash `prf_hash_function`) are modelled from the spec as opaque
parameters or explicit records; each such definition carries a
`Modelled from the spec` remark in its doc comment.
-/

/-! ## Bitwise preliminaries -/

/-- All-ones 64-bit mask; `~x` on `uint64_t` is embedded as `x ^^^ mask64`. -/
def mask64 : Nat := 2 ^ 64 - 1

/-- Embedding of C bitwise complement `~` on `uint64_t`. -/
def nnot (x : Nat) : Nat := x ^^^ mask64

/-- Embedding of the C macro
`ROL(a, offset) = ((a) << (offset)) ^ ((a) >> (64 - (offset)))`,
with the left shift wrapping modulo `2 ^ 64` as for `uint64_t`. -/
def rol64 (a : Nat) (offset : Nat) : Nat :=
  ((a <<< offset) % 2 ^ 64) ^^^ (a >>> (64 - offset))

instance : Std.Associative (fun a b : Nat => a ^^^ b) := ⟨Nat.xor_assoc⟩

instance : Std.Commutative (fun a b : Nat => a ^^^ b) := ⟨Nat.xor_comm⟩

theorem nat_xor_left_comm (a b c : Nat) : a ^^^ (b ^^^ c) = b ^^^ (a ^^^ c) := by
  rw [← Nat.xor_assoc, Nat.xor_comm a b, Nat.xor_assoc]

theorem rol64_xor (x y k : Nat) : rol64 (x ^^^ y) k = rol64 x k ^^^ rol64 y k := by
  apply Nat.eq_of_testBit_eq
  intro j
  simp only [rol64, Nat.testBit_xor, Nat.testBit_mod_two_pow, Nat.testBit_shiftLeft,
    Nat.testBit_shiftRight]
  generalize decide (j < 64) = d1
  generalize decide (k ≤ j) = d2
  generalize Nat.testBit x (j - k) = a
  generalize Nat.testBit y (j - k) = b
  generalize Nat.testBit x (64 - k + j) = c
  generalize Nat.testBit y (64 - k + j) = e
  revert d1 d2 a b c e
  decide

/-! ## The Keccak lane state

`St` holds the 25 lanes of one share of the Keccak state, with the field
names used by the C source (`LOADSTATE`): `Aba` is lane 0, `Abe` lane 1,
…, `Asu` lane 24. -/

@[ext]
structure St where
  Aba : Nat
  Abe : Nat
  Abi : Nat
  Abo : Nat
  Abu : Nat
  Aga : Nat
  Age : Nat
  Agi : Nat
  Ago : Nat
  Agu : Nat
  Aka : Nat
  Ake : Nat
  Aki : Nat
  Ako : Nat
  Aku : Nat
  Ama : Nat
  Ame : Nat
  Ami : Nat
  Amo : Nat
  Amu : Nat
  Asa : Nat
  Ase : Nat
  Asi : Nat
  Aso : Nat
  Asu : Nat
deriving DecidableEq

/-- A triple of shares, as the three `DECLARE(0) DECLARE(1) DECLARE(2)`
copies of the state variables in the C source. -/
def St3 : Type := St × St × St

/-- Lane-wise XOR of the three shares; the logical Keccak state of a
threshold state (and exactly the computation of the `Do_Xor` case:
`Aba0 ^= Aba1 ^ Aba2;` etc.). -/
def collapseSt (a b c : St) : St where
  Aba := a.Aba ^^^ (b.Aba ^^^ c.Aba)
  Abe := a.Abe ^^^ (b.Abe ^^^ c.Abe)
  Abi := a.Abi ^^^ (b.Abi ^^^ c.Abi)
  Abo := a.Abo ^^^ (b.Abo ^^^ c.Abo)
  Abu := a.Abu ^^^ (b.Abu ^^^ c.Abu)
  Aga := a.Aga ^^^ (b.Aga ^^^ c.Aga)
  Age := a.Age ^^^ (b.Age ^^^ c.Age)
  Agi := a.Agi ^^^ (b.Agi ^^^ c.Agi)
  Ago := a.Ago ^^^ (b.Ago ^^^ c.Ago)
  Agu := a.Agu ^^^ (b.Agu ^^^ c.Agu)
  Aka := a.Aka ^^^ (b.Aka ^^^ c.Aka)
  Ake := a.Ake ^^^ (b.Ake ^^^ c.Ake)
  Aki := a.Aki ^^^ (b.Aki ^^^ c.Aki)
  Ako := a.Ako ^^^ (b.Ako ^^^ c.Ako)
  Aku := a.Aku ^^^ (b.Aku ^^^ c.Aku)
  Ama := a.Ama ^^^ (b.Ama ^^^ c.Ama)
  Ame := a.Ame ^^^ (b.Ame ^^^ c.Ame)
  Ami := a.Ami ^^^ (b.Ami ^^^ c.Ami)
  Amo := a.Amo ^^^ (b.Amo ^^^ c.Amo)
  Amu := a.Amu ^^^ (b.Amu ^^^ c.Amu)
  Asa := a.Asa ^^^ (b.Asa ^^^ c.Asa)
  Ase := a.Ase ^^^ (b.Ase ^^^ c.Ase)
  Asi := a.Asi ^^^ (b.Asi ^^^ c.Asi)
  Aso := a.Aso ^^^ (b.Aso ^^^ c.Aso)
  Asu := a.Asu ^^^ (b.Asu ^^^ c.Asu)

/-- The logical state of a share triple. -/
def collapse3 (t : St3) : St := collapseSt t.1 t.2.1 t.2.2

/-- The Keccak round constants (`KeccakF_RoundConstants`). -/
def KeccakF_RoundConstants : List Nat :=
  [0x0000000000000001, 0x0000000000008082,
   0x800000000000808a, 0x8000000080008000,
   0x000000000000808b, 0x0000000080000001,
   0x8000000080008081, 0x8000000000008009,
   0x000000000000008a, 0x0000000000000088,
   0x0000000080008009, 0x000000008000000a,
   0x000000008000808b, 0x800000000000008b,
   0x8000000000008089, 0x8000000000008003,
   0x8000000000008002, 0x8000000000000080,
   0x000000000000800a, 0x800000008000000a,
   0x8000000080008081, 0x8000000000008080,
   0x0000000080000001, 0x8000000080008008]

/-- `KeccakF_RoundConstants[round]`. -/
def rcConst (round : Nat) : Nat := KeccakF_RoundConstants.getD round 0

/-! The linear part of a round.  The C macros `STEP1` … `STEP5` first form
the column parities `BC*`, then the theta deltas `D*`, then produce the
rho-pi-rotated lanes (reusing the names `BC*` for the chi inputs).  Each
`A` lane is read exactly once across the five STEP macros, so the C
in-place updates (`Aba ^= Da` etc.) are equivalent to the functional form
below. -/

/-- Column parity `BCa = Aba ^ Aga ^ Aka ^ Ama ^ Asa` (from `STEP1`). -/
def bca (s : St) : Nat := s.Aba ^^^ s.Aga ^^^ s.Aka ^^^ s.Ama ^^^ s.Asa

/-- Column parity `BCe` (from `STEP1`). -/
def bce (s : St) : Nat := s.Abe ^^^ s.Age ^^^ s.Ake ^^^ s.Ame ^^^ s.Ase

/-- Column parity `BCi` (from `STEP1`). -/
def bci (s : St) : Nat := s.Abi ^^^ s.Agi ^^^ s.Aki ^^^ s.Ami ^^^ s.Asi

/-- Column parity `BCo` (from `STEP1`). -/
def bco (s : St) : Nat := s.Abo ^^^ s.Ago ^^^ s.Ako ^^^ s.Amo ^^^ s.Aso

/-- Column parity `BCu` (from `STEP1`). -/
def bcu (s : St) : Nat := s.Abu ^^^ s.Agu ^^^ s.Aku ^^^ s.Amu ^^^ s.Asu

/-- Theta delta `Da = BCu ^ ROL(BCe, 1)`. -/
def d_a (s : St) : Nat := bcu s ^^^ rol64 (bce s) 1

/-- Theta delta `De = BCa ^ ROL(BCi, 1)`. -/
def d_e (s : St) : Nat := bca s ^^^ rol64 (bci s) 1

/-- Theta delta `Di = BCe ^ ROL(BCo, 1)`. -/
def d_i (s : St) : Nat := bce s ^^^ rol64 (bco s) 1

/-- Theta delta `Do = BCi ^ ROL(BCu, 1)`. -/
def d_o (s : St) : Nat := bci s ^^^ rol64 (bcu s) 1

/-- Theta delta `Du = BCo ^ ROL(BCa, 1)`. -/
def d_u (s : St) : Nat := bco s ^^^ rol64 (bca s) 1

/-- The theta-rho-pi image of one share: the 25 chi-input lanes exactly as
computed by `STEP1` … `STEP5` (row b from `STEP1`, row g from `STEP2`,
row k from `STEP3`, row m from `STEP4`, row s from `STEP5`). -/
def bState (s : St) : St where
  Aba := s.Aba ^^^ d_a s
  Abe := rol64 (s.Age ^^^ d_e s) 44
  Abi := rol64 (s.Aki ^^^ d_i s) 43
  Abo := rol64 (s.Amo ^^^ d_o s) 21
  Abu := rol64 (s.Asu ^^^ d_u s) 14
  Aga := rol64 (s.Abo ^^^ d_o s) 28
  Age := rol64 (s.Agu ^^^ d_u s) 20
  Agi := rol64 (s.Aka ^^^ d_a s) 3
  Ago := rol64 (s.Ame ^^^ d_e s) 45
  Agu := rol64 (s.Asi ^^^ d_i s) 61
  Aka := rol64 (s.Abe ^^^ d_e s) 1
  Ake := rol64 (s.Agi ^^^ d_i s) 6
  Aki := rol64 (s.Ako ^^^ d_o s) 25
  Ako := rol64 (s.Amu ^^^ d_u s) 8
  Aku := rol64 (s.Asa ^^^ d_a s) 18
  Ama := rol64 (s.Abu ^^^ d_u s) 27
  Ame := rol64 (s.Aga ^^^ d_a s) 36
  Ami := rol64 (s.Ake ^^^ d_e s) 10
  Amo := rol64 (s.Ami ^^^ d_i s) 15
  Amu := rol64 (s.Aso ^^^ d_o s) 56
  Asa := rol64 (s.Abi ^^^ d_i s) 62
  Ase := rol64 (s.Ago ^^^ d_o s) 55
  Asi := rol64 (s.Aku ^^^ d_u s) 39
  Aso := rol64 (s.Ama ^^^ d_a s) 41
  Asu := rol64 (s.Ase ^^^ d_e s) 2

/-- One plain chi row output `E = BC ^ (~BCe & BCi)` applied to the five
chi inputs of a row, with the round constant added on lane (0,0) by the
caller.  `chiIota b rc` is the `Keccak_1` round body after `STEP1` …
`STEP5` have produced `b`. -/
def chiIota (b : St) (rc : Nat) : St where
  Aba := (b.Aba ^^^ (nnot b.Abe &&& b.Abi)) ^^^ rc
  Abe := b.Abe ^^^ (nnot b.Abi &&& b.Abo)
  Abi := b.Abi ^^^ (nnot b.Abo &&& b.Abu)
  Abo := b.Abo ^^^ (nnot b.Abu &&& b.Aba)
  Abu := b.Abu ^^^ (nnot b.Aba &&& b.Abe)
  Aga := b.Aga ^^^ (nnot b.Age &&& b.Agi)
  Age := b.Age ^^^ (nnot b.Agi &&& b.Ago)
  Agi := b.Agi ^^^ (nnot b.Ago &&& b.Agu)
  Ago := b.Ago ^^^ (nnot b.Agu &&& b.Aga)
  Agu := b.Agu ^^^ (nnot b.Aga &&& b.Age)
  Aka := b.Aka ^^^ (nnot b.Ake &&& b.Aki)
  Ake := b.Ake ^^^ (nnot b.Aki &&& b.Ako)
  Aki := b.Aki ^^^ (nnot b.Ako &&& b.Aku)
  Ako := b.Ako ^^^ (nnot b.Aku &&& b.Aka)
  Aku := b.Aku ^^^ (nnot b.Aka &&& b.Ake)
  Ama := b.Ama ^^^ (nnot b.Ame &&& b.Ami)
  Ame := b.Ame ^^^ (nnot b.Ami &&& b.Amo)
  Ami := b.Ami ^^^ (nnot b.Amo &&& b.Amu)
  Amo := b.Amo ^^^ (nnot b.Amu &&& b.Ama)
  Amu := b.Amu ^^^ (nnot b.Ama &&& b.Ame)
  Asa := b.Asa ^^^ (nnot b.Ase &&& b.Asi)
  Ase := b.Ase ^^^ (nnot b.Asi &&& b.Aso)
  Asi := b.Asi ^^^ (nnot b.Aso &&& b.Asu)
  Aso := b.Aso ^^^ (nnot b.Asu &&& b.Asa)
  Asu := b.Asu ^^^ (nnot b.Asa &&& b.Ase)

/-- A single standard Keccak round: the `Keccak_1` case of the C switch. -/
def keccakRound (s : St) (rc : Nat) : St := chiIota (bState s) rc

/-- Iterated standard rounds starting at round index `r`. -/
def keccakIter (s : St) (r : Nat) : Nat → St
  | 0 => s
  | n + 1 => keccakIter (keccakRound s (rcConst r)) (r + 1) n

/-- The standard 24-round Keccak-p[1600,24] permutation. -/
def keccakP (s : St) : St := keccakIter s 0 24

/-! ## The threshold (masked) round

The `Keccak_3` case computes each chi output per share with the
cross-share product pattern.  `chi3a`, `chi3b`, `chi3c` are the three
share outputs for one lane, written exactly as in the source:
`Eba0 = BCa0 ^ (~BCe0 & BCi0) ^ (~BCe1 & BCi1) ^ (~BCe2 & BCi2)` etc. -/

/-- Share-0 masked chi output for one lane. -/
def chi3a (a e0 e1 e2 c0 c1 c2 : Nat) : Nat :=
  a ^^^ (nnot e0 &&& c0) ^^^ (nnot e1 &&& c1) ^^^ (nnot e2 &&& c2)

/-- Share-1 masked chi output for one lane. -/
def chi3b (a e0 e1 e2 c0 c1 c2 : Nat) : Nat :=
  a ^^^ (nnot e0 &&& c1) ^^^ (nnot e1 &&& c2) ^^^ (nnot e2 &&& c0)

/-- Share-2 masked chi output for one lane. -/
def chi3c (a e0 e1 e2 c0 c1 c2 : Nat) : Nat :=
  a ^^^ (nnot e0 &&& c2) ^^^ (nnot e1 &&& c0) ^^^ (nnot e2 &&& c1)

/-- The masked chi-iota stage of the `Keccak_3` case, applied to the
three theta-rho-pi images `b0 b1 b2` of the shares.  The round constant
is XORed into lane (0,0) of share 0 only (`Eba0 ^= RC`). -/
def chiIota3 (b0 b1 b2 : St) (rc : Nat) : St3 :=
  (⟨chi3a b0.Aba b0.Abe b1.Abe b2.Abe b0.Abi b1.Abi b2.Abi ^^^ rc,
    chi3a b0.Abe b0.Abi b1.Abi b2.Abi b0.Abo b1.Abo b2.Abo,
    chi3a b0.Abi b0.Abo b1.Abo b2.Abo b0.Abu b1.Abu b2.Abu,
    chi3a b0.Abo b0.Abu b1.Abu b2.Abu b0.Aba b1.Aba b2.Aba,
    chi3a b0.Abu b0.Aba b1.Aba b2.Aba b0.Abe b1.Abe b2.Abe,
    chi3a b0.Aga b0.Age b1.Age b2.Age b0.Agi b1.Agi b2.Agi,
    chi3a b0.Age b0.Agi b1.Agi b2.Agi b0.Ago b1.Ago b2.Ago,
    chi3a b0.Agi b0.Ago b1.Ago b2.Ago b0.Agu b1.Agu b2.Agu,
    chi3a b0.Ago b0.Agu b1.Agu b2.Agu b0.Aga b1.Aga b2.Aga,
    chi3a b0.Agu b0.Aga b1.Aga b2.Aga b0.Age b1.Age b2.Age,
    chi3a b0.Aka b0.Ake b1.Ake b2.Ake b0.Aki b1.Aki b2.Aki,
    chi3a b0.Ake b0.Aki b1.Aki b2.Aki b0.Ako b1.Ako b2.Ako,
    chi3a b0.Aki b0.Ako b1.Ako b2.Ako b0.Aku b1.Aku b2.Aku,
    chi3a b0.Ako b0.Aku b1.Aku b2.Aku b0.Aka b1.Aka b2.Aka,
    chi3a b0.Aku b0.Aka b1.Aka b2.Aka b0.Ake b1.Ake b2.Ake,
    chi3a b0.Ama b0.Ame b1.Ame b2.Ame b0.Ami b1.Ami b2.Ami,
    chi3a b0.Ame b0.Ami b1.Ami b2.Ami b0.Amo b1.Amo b2.Amo,
    chi3a b0.Ami b0.Amo b1.Amo b2.Amo b0.Amu b1.Amu b2.Amu,
    chi3a b0.Amo b0.Amu b1.Amu b2.Amu b0.Ama b1.Ama b2.Ama,
    chi3a b0.Amu b0.Ama b1.Ama b2.Ama b0.Ame b1.Ame b2.Ame,
    chi3a b0.Asa b0.Ase b1.Ase b2.Ase b0.Asi b1.Asi b2.Asi,
    chi3a b0.Ase b0.Asi b1.Asi b2.Asi b0.Aso b1.Aso b2.Aso,
    chi3a b0.Asi b0.Aso b1.Aso b2.Aso b0.Asu b1.Asu b2.Asu,
    chi3a b0.Aso b0.Asu b1.Asu b2.Asu b0.Asa b1.Asa b2.Asa,
    chi3a b0.Asu b0.Asa b1.Asa b2.Asa b0.Ase b1.Ase b2.Ase⟩,
   ⟨chi3b b1.Aba b0.Abe b1.Abe b2.Abe b0.Abi b1.Abi b2.Abi,
    chi3b b1.Abe b0.Abi b1.Abi b2.Abi b0.Abo b1.Abo b2.Abo,
    chi3b b1.Abi b0.Abo b1.Abo b2.Abo b0.Abu b1.Abu b2.Abu,
    chi3b b1.Abo b0.Abu b1.Abu b2.Abu b0.Aba b1.Aba b2.Aba,
    chi3b b1.Abu b0.Aba b1.Aba b2.Aba b0.Abe b1.Abe b2.Abe,
    chi3b b1.Aga b0.Age b1.Age b2.Age b0.Agi b1.Agi b2.Agi,
    chi3b b1.Age b0.Agi b1.Agi b2.Agi b0.Ago b1.Ago b2.Ago,
    chi3b b1.Agi b0.Ago b1.Ago b2.Ago b0.Agu b1.Agu b2.Agu,
    chi3b b1.Ago b0.Agu b1.Agu b2.Agu b0.Aga b1.Aga b2.Aga,
    chi3b b1.Agu b0.Aga b1.Aga b2.Aga b0.Age b1.Age b2.Age,
    chi3b b1.Aka b0.Ake b1.Ake b2.Ake b0.Aki b1.Aki b2.Aki,
    chi3b b1.Ake b0.Aki b1.Aki b2.Aki b0.Ako b1.Ako b2.Ako,
    chi3b b1.Aki b0.Ako b1.Ako b2.Ako b0.Aku b1.Aku b2.Aku,
    chi3b b1.Ako b0.Aku b1.Aku b2.Aku b0.Aka b1.Aka b2.Aka,
    chi3b b1.Aku b0.Aka b1.Aka b2.Aka b0.Ake b1.Ake b2.Ake,
    chi3b b1.Ama b0.Ame b1.Ame b2.Ame b0.Ami b1.Ami b2.Ami,
    chi3b b1.Ame b0.Ami b1.Ami b2.Ami b0.Amo b1.Amo b2.Amo,
    chi3b b1.Ami b0.Amo b1.Amo b2.Amo b0.Amu b1.Amu b2.Amu,
    chi3b b1.Amo b0.Amu b1.Amu b2.Amu b0.Ama b1.Ama b2.Ama,
    chi3b b1.Amu b0.Ama b1.Ama b2.Ama b0.Ame b1.Ame b2.Ame,
    chi3b b1.Asa b0.Ase b1.Ase b2.Ase b0.Asi b1.Asi b2.Asi,
    chi3b b1.Ase b0.Asi b1.Asi b2.Asi b0.Aso b1.Aso b2.Aso,
    chi3b b1.Asi b0.Aso b1.Aso b2.Aso b0.Asu b1.Asu b2.Asu,
    chi3b b1.Aso b0.Asu b1.Asu b2.Asu b0.Asa b1.Asa b2.Asa,
    chi3b b1.Asu b0.Asa b1.Asa b2.Asa b0.Ase b1.Ase b2.Ase⟩,
   ⟨chi3c b2.Aba b0.Abe b1.Abe b2.Abe b0.Abi b1.Abi b2.Abi,
    chi3c b2.Abe b0.Abi b1.Abi b2.Abi b0.Abo b1.Abo b2.Abo,
    chi3c b2.Abi b0.Abo b1.Abo b2.Abo b0.Abu b1.Abu b2.Abu,
    chi3c b2.Abo b0.Abu b1.Abu b2.Abu b0.Aba b1.Aba b2.Aba,
    chi3c b2.Abu b0.Aba b1.Aba b2.Aba b0.Abe b1.Abe b2.Abe,
    chi3c b2.Aga b0.Age b1.Age b2.Age b0.Agi b1.Agi b2.Agi,
    chi3c b2.Age b0.Agi b1.Agi b2.Agi b0.Ago b1.Ago b2.Ago,
    chi3c b2.Agi b0.Ago b1.Ago b2.Ago b0.Agu b1.Agu b2.Agu,
    chi3c b2.Ago b0.Agu b1.Agu b2.Agu b0.Aga b1.Aga b2.Aga,
    chi3c b2.Agu b0.Aga b1.Aga b2.Aga b0.Age b1.Age b2.Age,
    chi3c b2.Aka b0.Ake b1.Ake b2.Ake b0.Aki b1.Aki b2.Aki,
    chi3c b2.Ake b0.Aki b1.Aki b2.Aki b0.Ako b1.Ako b2.Ako,
    chi3c b2.Aki b0.Ako b1.Ako b2.Ako b0.Aku b1.Aku b2.Aku,
    chi3c b2.Ako b0.Aku b1.Aku b2.Aku b0.Aka b1.Aka b2.Aka,
    chi3c b2.Aku b0.Aka b1.Aka b2.Aka b0.Ake b1.Ake b2.Ake,
    chi3c b2.Ama b0.Ame b1.Ame b2.Ame b0.Ami b1.Ami b2.Ami,
    chi3c b2.Ame b0.Ami b1.Ami b2.Ami b0.Amo b1.Amo b2.Amo,
    chi3c b2.Ami b0.Amo b1.Amo b2.Amo b0.Amu b1.Amu b2.Amu,
    chi3c b2.Amo b0.Amu b1.Amu b2.Amu b0.Ama b1.Ama b2.Ama,
    chi3c b2.Amu b0.Ama b1.Ama b2.Ama b0.Ame b1.Ame b2.Ame,
    chi3c b2.Asa b0.Ase b1.Ase b2.Ase b0.Asi b1.Asi b2.Asi,
    chi3c b2.Ase b0.Asi b1.Asi b2.Asi b0.Aso b1.Aso b2.Aso,
    chi3c b2.Asi b0.Aso b1.Aso b2.Aso b0.Asu b1.Asu b2.Asu,
    chi3c b2.Aso b0.Asu b1.Asu b2.Asu b0.Asa b1.Asa b2.Asa,
    chi3c b2.Asu b0.Asa b1.Asa b2.Asa b0.Ase b1.Ase b2.Ase⟩)

/-- The `Keccak_3` case: one masked round on the share triple. -/
def applyK3 (t : St3) (round : Nat) : St3 :=
  chiIota3 (bState t.1) (bState t.2.1) (bState t.2.2) (rcConst round)

/-- The `Keccak_1` case: a standard round on share 0 only (the `1` and
`2` variables are untouched). -/
def applyK1 (t : St3) (round : Nat) : St3 :=
  (keccakRound t.1 (rcConst round), t.2.1, t.2.2)

/-- The `Do_Xor` case: absorb shares 1 and 2 into share 0, lane-wise;
shares 1 and 2 retain their values. -/
def doXor (t : St3) : St3 := (collapseSt t.1 t.2.1 t.2.2, t.2.1, t.2.2)

/-! ## The masking-schedule state machine -/

/-- The `enum keccak_state` values of the C switch. -/
inductive KAction where
  | Keccak_1 : KAction
  | Keccak_3 : KAction
  | Do_Xor : KAction
  | Output_1 : KAction
  | Output_3 : KAction
deriving DecidableEq

/-- The `standard_output` schedule for `BLINDED_ROUNDS == 3`:
three masked rounds, collapse, 21 plain rounds, output share 0. -/
def standard_output : List KAction :=
  [KAction.Keccak_3, KAction.Keccak_3, KAction.Keccak_3,
   KAction.Do_Xor,
   KAction.Keccak_1, KAction.Keccak_1, KAction.Keccak_1, KAction.Keccak_1,
   KAction.Keccak_1, KAction.Keccak_1, KAction.Keccak_1, KAction.Keccak_1,
   KAction.Keccak_1, KAction.Keccak_1, KAction.Keccak_1, KAction.Keccak_1,
   KAction.Keccak_1, KAction.Keccak_1, KAction.Keccak_1, KAction.Keccak_1,
   KAction.Keccak_1, KAction.Keccak_1, KAction.Keccak_1, KAction.Keccak_1,
   KAction.Keccak_1,
   KAction.Output_1]

/-- The `threshold_output` schedule for `BLINDED_ROUNDS == 3`:
three masked rounds, collapse, 18 plain rounds, split back, three more
masked rounds, output all three shares. -/
def threshold_output : List KAction :=
  [KAction.Keccak_3, KAction.Keccak_3, KAction.Keccak_3,
   KAction.Do_Xor,
   KAction.Keccak_1, KAction.Keccak_1, KAction.Keccak_1, KAction.Keccak_1,
   KAction.Keccak_1, KAction.Keccak_1, KAction.Keccak_1, KAction.Keccak_1,
   KAction.Keccak_1, KAction.Keccak_1, KAction.Keccak_1, KAction.Keccak_1,
   KAction.Keccak_1, KAction.Keccak_1, KAction.Keccak_1, KAction.Keccak_1,
   KAction.Keccak_1, KAction.Keccak_1,
   KAction.Do_Xor,
   KAction.Keccak_3, KAction.Keccak_3, KAction.Keccak_3,
   KAction.Output_3]

/-- Runs the schedule over the share triple, tracking the round counter,
and returns the state at the `Output_1` / `Output_3` action (the round
counter is advanced only by the Keccak cases, as in the source). -/
def runActs : List KAction → St3 → Nat → St3
  | [], t, _ => t
  | KAction.Keccak_1 :: rest, t, round => runActs rest (applyK1 t round) (round + 1)
  | KAction.Keccak_3 :: rest, t, round => runActs rest (applyK3 t round) (round + 1)
  | KAction.Do_Xor :: rest, t, round => runActs rest (doXor t) round
  | KAction.Output_1 :: _, t, _ => t
  | KAction.Output_3 :: _, t, _ => t

/-- `LOADSTATE(x)`: read share `x` of the 75-lane input array. -/
def LOADSTATE (instate : Nat → Nat) (x : Nat) : St where
  Aba := instate (0 + 25 * x)
  Abe := instate (1 + 25 * x)
  Abi := instate (2 + 25 * x)
  Abo := instate (3 + 25 * x)
  Abu := instate (4 + 25 * x)
  Aga := instate (5 + 25 * x)
  Age := instate (6 + 25 * x)
  Agi := instate (7 + 25 * x)
  Ago := instate (8 + 25 * x)
  Agu := instate (9 + 25 * x)
  Aka := instate (10 + 25 * x)
  Ake := instate (11 + 25 * x)
  Aki := instate (12 + 25 * x)
  Ako := instate (13 + 25 * x)
  Aku := instate (14 + 25 * x)
  Ama := instate (15 + 25 * x)
  Ame := instate (16 + 25 * x)
  Ami := instate (17 + 25 * x)
  Amo := instate (18 + 25 * x)
  Amu := instate (19 + 25 * x)
  Asa := instate (20 + 25 * x)
  Ase := instate (21 + 25 * x)
  Asi := instate (22 + 25 * x)
  Aso := instate (23 + 25 * x)
  Asu := instate (24 + 25 * x)

/-- `DO_OUTPUT(x)`: write the first four lanes of share `x` into the
output array at offset `25 * x`; other entries are left unchanged. -/
def DO_OUTPUT (s : St) (x : Nat) (outstate : Nat → Nat) : Nat → Nat := fun i =>
  if i = 0 + 25 * x then s.Aba
  else if i = 1 + 25 * x then s.Abe
  else if i = 2 + 25 * x then s.Abi
  else if i = 3 + 25 * x then s.Abo
  else outstate i

/-- Embedding of `do_threshold_keccak_permutation`: load the three
shares, run the schedule selected by `output_threshold`, and write the
output lanes into `outstate`. -/
def do_threshold_keccak_permutation (instate : Nat → Nat) (outstate : Nat → Nat)
    (output_threshold : Bool) : Nat → Nat :=
  let t : St3 := (LOADSTATE instate 0, LOADSTATE instate 1, LOADSTATE instate 2)
  let fin := runActs (if output_threshold then threshold_output else standard_output) t 0
  if output_threshold then
    DO_OUTPUT fin.2.2 2 (DO_OUTPUT fin.2.1 1 (DO_OUTPUT fin.1 0 outstate))
  else
    DO_OUTPUT fin.1 0 outstate

/-! ## Collapse lemmas: the masked round computes the standard round -/

theorem chi3_xor (a0 a1 a2 e0 e1 e2 c0 c1 c2 : Nat) :
    chi3a a0 e0 e1 e2 c0 c1 c2 ^^^
      (chi3b a1 e0 e1 e2 c0 c1 c2 ^^^ chi3c a2 e0 e1 e2 c0 c1 c2) =
    (a0 ^^^ (a1 ^^^ a2)) ^^^ (nnot (e0 ^^^ (e1 ^^^ e2)) &&& (c0 ^^^ (c1 ^^^ c2))) := by
  apply Nat.eq_of_testBit_eq
  intro j
  simp only [chi3a, chi3b, chi3c, nnot, Nat.testBit_xor, Nat.testBit_land]
  generalize Nat.testBit a0 j = A0
  generalize Nat.testBit a1 j = A1
  generalize Nat.testBit a2 j = A2
  generalize Nat.testBit e0 j = E0
  generalize Nat.testBit e1 j = E1
  generalize Nat.testBit e2 j = E2
  generalize Nat.testBit c0 j = C0
  generalize Nat.testBit c1 j = C1
  generalize Nat.testBit c2 j = C2
  generalize Nat.testBit mask64 j = M
  revert A0 A1 A2 E0 E1 E2 C0 C1 C2 M
  decide

theorem chi3_xor_rc (a0 a1 a2 e0 e1 e2 c0 c1 c2 rc : Nat) :
    (chi3a a0 e0 e1 e2 c0 c1 c2 ^^^ rc) ^^^
      (chi3b a1 e0 e1 e2 c0 c1 c2 ^^^ chi3c a2 e0 e1 e2 c0 c1 c2) =
    ((a0 ^^^ (a1 ^^^ a2)) ^^^ (nnot (e0 ^^^ (e1 ^^^ e2)) &&& (c0 ^^^ (c1 ^^^ c2)))) ^^^ rc := by
  rw [Nat.xor_comm (chi3a a0 e0 e1 e2 c0 c1 c2) rc, Nat.xor_assoc, chi3_xor,
    Nat.xor_comm rc _]

theorem bca_collapse (x y z : St) :
    bca (collapseSt x y z) = bca x ^^^ (bca y ^^^ bca z) := by
  simp only [bca, collapseSt]
  simp [Nat.xor_assoc, Nat.xor_comm, nat_xor_left_comm]

theorem bce_collapse (x y z : St) :
    bce (collapseSt x y z) = bce x ^^^ (bce y ^^^ bce z) := by
  simp only [bce, collapseSt]
  simp [Nat.xor_assoc, Nat.xor_comm, nat_xor_left_comm]

theorem bci_collapse (x y z : St) :
    bci (collapseSt x y z) = bci x ^^^ (bci y ^^^ bci z) := by
  simp only [bci, collapseSt]
  simp [Nat.xor_assoc, Nat.xor_comm, nat_xor_left_comm]

theorem bco_collapse (x y z : St) :
    bco (collapseSt x y z) = bco x ^^^ (bco y ^^^ bco z) := by
  simp only [bco, collapseSt]
  simp [Nat.xor_assoc, Nat.xor_comm, nat_xor_left_comm]

theorem bcu_collapse (x y z : St) :
    bcu (collapseSt x y z) = bcu x ^^^ (bcu y ^^^ bcu z) := by
  simp only [bcu, collapseSt]
  simp [Nat.xor_assoc, Nat.xor_comm, nat_xor_left_comm]

theorem d_a_collapse (x y z : St) :
    d_a (collapseSt x y z) = d_a x ^^^ (d_a y ^^^ d_a z) := by
  simp only [d_a, bcu_collapse, bce_collapse, rol64_xor]
  simp [Nat.xor_assoc, Nat.xor_comm, nat_xor_left_comm]

theorem d_e_collapse (x y z : St) :
    d_e (collapseSt x y z) = d_e x ^^^ (d_e y ^^^ d_e z) := by
  simp only [d_e, bca_collapse, bci_collapse, rol64_xor]
  simp [Nat.xor_assoc, Nat.xor_comm, nat_xor_left_comm]

theorem d_i_collapse (x y z : St) :
    d_i (collapseSt x y z) = d_i x ^^^ (d_i y ^^^ d_i z) := by
  simp only [d_i, bce_collapse, bco_collapse, rol64_xor]
  simp [Nat.xor_assoc, Nat.xor_comm, nat_xor_left_comm]

theorem d_o_collapse (x y z : St) :
    d_o (collapseSt x y z) = d_o x ^^^ (d_o y ^^^ d_o z) := by
  simp only [d_o, bci_collapse, bcu_collapse, rol64_xor]
  simp [Nat.xor_assoc, Nat.xor_comm, nat_xor_left_comm]

theorem d_u_collapse (x y z : St) :
    d_u (collapseSt x y z) = d_u x ^^^ (d_u y ^^^ d_u z) := by
  simp only [d_u, bco_collapse, bca_collapse, rol64_xor]
  simp [Nat.xor_assoc, Nat.xor_comm, nat_xor_left_comm]

set_option maxHeartbeats 1000000 in
theorem bState_collapse (x y z : St) :
    bState (collapseSt x y z) = collapseSt (bState x) (bState y) (bState z) := by
  simp only [bState]
  simp only [d_a_collapse, d_e_collapse, d_i_collapse, d_o_collapse, d_u_collapse]
  simp only [collapseSt]
  simp only [St.mk.injEq]
  refine ⟨?_, ?_, ?_, ?_, ?_, ?_, ?_, ?_, ?_, ?_, ?_, ?_, ?_, ?_, ?_, ?_, ?_, ?_, ?_, ?_,
    ?_, ?_, ?_, ?_, ?_⟩ <;>
    (try simp only [rol64_xor]) <;> ac_rfl

set_option maxHeartbeats 1000000 in
theorem chiIota3_collapse (b0 b1 b2 : St) (rc : Nat) :
    collapse3 (chiIota3 b0 b1 b2 rc) = chiIota (collapseSt b0 b1 b2) rc := by
  simp only [collapse3, chiIota3, chiIota, collapseSt]
  simp only [St.mk.injEq]
  refine ⟨?_, ?_, ?_, ?_, ?_, ?_, ?_, ?_, ?_, ?_, ?_, ?_, ?_, ?_, ?_, ?_, ?_, ?_, ?_, ?_,
    ?_, ?_, ?_, ?_, ?_⟩ <;>
    first
      | apply chi3_xor_rc
      | apply chi3_xor

theorem collapse3_applyK3 (t : St3) (r : Nat) :
    collapse3 (applyK3 t r) = keccakRound (collapse3 t) (rcConst r) := by
  have h : collapse3 t = collapseSt t.1 t.2.1 t.2.2 := rfl
  rw [applyK3, keccakRound, h, bState_collapse]
  exact chiIota3_collapse _ _ _ _

theorem collapseSt_cancel (a b c : St) : collapseSt (collapseSt a b c) b c = a := by
  have h : ∀ p q r : Nat, (p ^^^ (q ^^^ r)) ^^^ (q ^^^ r) = p := fun p q r => by
    rw [Nat.xor_assoc, Nat.xor_self, Nat.xor_zero]
  apply St.ext <;> simp only [collapseSt] <;> apply h

/-- `collapse3 (doXor u) = u.1`: the `Do_Xor` operation converts between
the threshold and standard representations (applying it twice with the
same shares 1 and 2 cancels). -/
theorem collapse3_doXor (u : St3) : collapse3 (doXor u) = u.1 := by
  show collapseSt (collapseSt u.1 u.2.1 u.2.2) u.2.1 u.2.2 = u.1
  exact collapseSt_cancel _ _ _

theorem keccakIter_add (m : Nat) : ∀ (s : St) (r n : Nat),
    keccakIter s r (m + n) = keccakIter (keccakIter s r m) (r + m) n := by
  induction m with
  | zero => intro s r n; simp [keccakIter]
  | succ m ih =>
    intro s r n
    have h1 : m + 1 + n = (m + n) + 1 := by omega
    rw [h1]
    show keccakIter (keccakRound s (rcConst r)) (r + 1) (m + n) = _
    rw [ih]
    have h2 : r + 1 + m = r + (m + 1) := by omega
    rw [h2]
    rfl

/-- Iterated `Keccak_3` rounds. -/
def applyK3iter (t : St3) (r : Nat) : Nat → St3
  | 0 => t
  | n + 1 => applyK3iter (applyK3 t r) (r + 1) n

theorem collapse3_applyK3iter (n : Nat) : ∀ (t : St3) (r : Nat),
    collapse3 (applyK3iter t r n) = keccakIter (collapse3 t) r n := by
  induction n with
  | zero => intro t r; rfl
  | succ n ih =>
    intro t r
    show collapse3 (applyK3iter (applyK3 t r) (r + 1) n) = _
    rw [ih, collapse3_applyK3]
    rfl

theorem runActs_K3s (m : Nat) : ∀ (rest : List KAction) (t : St3) (r : Nat),
    runActs (List.replicate m KAction.Keccak_3 ++ rest) t r =
      runActs rest (applyK3iter t r m) (r + m) := by
  induction m with
  | zero => intro rest t r; rfl
  | succ m ih =>
    intro rest t r
    show runActs (List.replicate m KAction.Keccak_3 ++ rest) (applyK3 t r) (r + 1) = _
    rw [ih]
    have h : r + 1 + m = r + (m + 1) := by omega
    rw [h]
    rfl

theorem runActs_K1s (m : Nat) : ∀ (rest : List KAction) (t : St3) (r : Nat),
    runActs (List.replicate m KAction.Keccak_1 ++ rest) t r =
      runActs rest (keccakIter t.1 r m, t.2.1, t.2.2) (r + m) := by
  induction m with
  | zero => intro rest t r; rfl
  | succ m ih =>
    intro rest t r
    show runActs (List.replicate m KAction.Keccak_1 ++ rest) (applyK1 t r) (r + 1) = _
    rw [ih]
    have h2 : keccakIter (applyK1 t r).1 (r + 1) m = keccakIter t.1 r (m + 1) := rfl
    rw [h2]
    have h : r + 1 + m = r + (m + 1) := by omega
    rw [h]
    rfl

theorem standard_output_eq :
    standard_output = List.replicate 3 KAction.Keccak_3 ++
      (KAction.Do_Xor :: (List.replicate 21 KAction.Keccak_1 ++ [KAction.Output_1])) := rfl

theorem threshold_output_eq :
    threshold_output = List.replicate 3 KAction.Keccak_3 ++
      (KAction.Do_Xor :: (List.replicate 18 KAction.Keccak_1 ++
        (KAction.Do_Xor :: (List.replicate 3 KAction.Keccak_3 ++ [KAction.Output_3])))) := rfl

theorem runActs_doXor (rest : List KAction) (t : St3) (r : Nat) :
    runActs (KAction.Do_Xor :: rest) t r = runActs rest (doXor t) r := rfl

theorem runActs_out1 (rest : List KAction) (t : St3) (r : Nat) :
    runActs (KAction.Output_1 :: rest) t r = t := rfl

theorem runActs_out3 (rest : List KAction) (t : St3) (r : Nat) :
    runActs (KAction.Output_3 :: rest) t r = t := rfl

theorem doXor_fst (u : St3) : (doXor u).1 = collapse3 u := rfl

/-- Running the unmasked-output schedule leaves in share 0 the full
24-round permutation of the logical input state. -/
theorem run_standard_share0 (t : St3) :
    (runActs standard_output t 0).1 = keccakP (collapse3 t) := by
  rw [standard_output_eq, runActs_K3s, Nat.zero_add, runActs_doXor, runActs_K1s,
    runActs_out1]
  show keccakIter (doXor (applyK3iter t 0 3)).1 3 21 = _
  rw [doXor_fst, collapse3_applyK3iter, keccakP, show (24 : Nat) = 3 + 21 from rfl,
    keccakIter_add, Nat.zero_add]

/-- Running the masked-output schedule produces a share triple whose
lane-wise XOR is the full 24-round permutation of the logical input. -/
theorem run_threshold_collapse (t : St3) :
    collapse3 (runActs threshold_output t 0) = keccakP (collapse3 t) := by
  have h24 : keccakP (collapse3 t) =
      keccakIter (keccakIter (keccakIter (collapse3 t) 0 3) 3 18) 21 3 := by
    rw [keccakP, show (24 : Nat) = 3 + (18 + 3) from rfl, keccakIter_add, Nat.zero_add,
      keccakIter_add, show (3 : Nat) + 18 = 21 from rfl]
  rw [threshold_output_eq, runActs_K3s, Nat.zero_add, runActs_doXor, runActs_K1s,
    show (3 : Nat) + 18 = 21 from rfl, runActs_doXor, runActs_K3s, runActs_out3,
    collapse3_applyK3iter, collapse3_doXor]
  show keccakIter (keccakIter (doXor (applyK3iter t 0 3)).1 3 18) 21 3 = _
  rw [doXor_fst, collapse3_applyK3iter, h24]

/-- The logical 25-lane state of a 75-lane threshold input:
`S = in[0..25) ⊕ in[25..50) ⊕ in[50..75)`. -/
def logicalState (instate : Nat → Nat) : St :=
  collapseSt (LOADSTATE instate 0) (LOADSTATE instate 1) (LOADSTATE instate 2)

theorem dtkp_unmasked (instate outst : Nat → Nat) :
    (do_threshold_keccak_permutation instate outst false) 0 =
      (keccakP (logicalState instate)).Aba ∧
    (do_threshold_keccak_permutation instate outst false) 1 =
      (keccakP (logicalState instate)).Abe ∧
    (do_threshold_keccak_permutation instate outst false) 2 =
      (keccakP (logicalState instate)).Abi ∧
    (do_threshold_keccak_permutation instate outst false) 3 =
      (keccakP (logicalState instate)).Abo := by
  have h : do_threshold_keccak_permutation instate outst false =
      DO_OUTPUT (runActs standard_output
        (LOADSTATE instate 0, LOADSTATE instate 1, LOADSTATE instate 2) 0).1 0 outst := rfl
  rw [h]
  have hs := run_standard_share0 (LOADSTATE instate 0, LOADSTATE instate 1, LOADSTATE instate 2)
  rw [hs]
  refine ⟨?_, ?_, ?_, ?_⟩ <;> simp [DO_OUTPUT, logicalState, collapse3]

theorem dtkp_masked (instate outst : Nat → Nat) :
    (do_threshold_keccak_permutation instate outst true) 0 ^^^
      ((do_threshold_keccak_permutation instate outst true) 25 ^^^
       (do_threshold_keccak_permutation instate outst true) 50) =
      (keccakP (logicalState instate)).Aba ∧
    (do_threshold_keccak_permutation instate outst true) 1 ^^^
      ((do_threshold_keccak_permutation instate outst true) 26 ^^^
       (do_threshold_keccak_permutation instate outst true) 51) =
      (keccakP (logicalState instate)).Abe ∧
    (do_threshold_keccak_permutation instate outst true) 2 ^^^
      ((do_threshold_keccak_permutation instate outst true) 27 ^^^
       (do_threshold_keccak_permutation instate outst true) 52) =
      (keccakP (logicalState instate)).Abi ∧
    (do_threshold_keccak_permutation instate outst true) 3 ^^^
      ((do_threshold_keccak_permutation instate outst true) 28 ^^^
       (do_threshold_keccak_permutation instate outst true) 53) =
      (keccakP (logicalState instate)).Abo := by
  have h : do_threshold_keccak_permutation instate outst true =
      (fun fin => DO_OUTPUT fin.2.2 2 (DO_OUTPUT fin.2.1 1 (DO_OUTPUT fin.1 0 outst)))
        (runActs threshold_output
          (LOADSTATE instate 0, LOADSTATE instate 1, LOADSTATE instate 2) 0) := rfl
  rw [h]
  have hs := run_threshold_collapse
    (LOADSTATE instate 0, LOADSTATE instate 1, LOADSTATE instate 2)
  generalize hfin : runActs threshold_output
    (LOADSTATE instate 0, LOADSTATE instate 1, LOADSTATE instate 2) 0 = fin
  rw [hfin] at hs
  rw [show logicalState instate =
    collapse3 (LOADSTATE instate 0, LOADSTATE instate 1, LOADSTATE instate 2) from rfl, ← hs]
  refine ⟨?_, ?_, ?_, ?_⟩ <;> simp [DO_OUTPUT, collapse3, collapseSt]

theorem logicalState_single (x : Nat → Nat) :
    logicalState (fun i => if i < 25 then x i else 0) = LOADSTATE x 0 := by
  apply St.ext <;> simp [logicalState, collapseSt, LOADSTATE]

/-- C1: for every 75-lane input triple and both values of
`output_threshold`, `do_threshold_keccak_permutation` computes the
standard 24-round Keccak-p[1600] permutation of the logical state
`S = in[0..25) ⊕ in[25..50) ⊕ in[50..75)`: with `output_threshold = 0`
the first four output lanes are the first four lanes of `keccakP S`;
with `output_threshold = 1` the three output shares, at lane offsets 0,
25 and 50, XOR lane-wise to the first four lanes of `keccakP S`; and for
the input triple `(x, 0, 0)` with `output_threshold = 0` the output is
the first four lanes of `keccakP x`. -/
theorem keccak_threshold_permutation_correct :
    (∀ instate outst : Nat → Nat,
      ((do_threshold_keccak_permutation instate outst false) 0 =
          (keccakP (logicalState instate)).Aba ∧
       (do_threshold_keccak_permutation instate outst false) 1 =
          (keccakP (logicalState instate)).Abe ∧
       (do_threshold_keccak_permutation instate outst false) 2 =
          (keccakP (logicalState instate)).Abi ∧
       (do_threshold_keccak_permutation instate outst false) 3 =
          (keccakP (logicalState instate)).Abo) ∧
      ((do_threshold_keccak_permutation instate outst true) 0 ^^^
         ((do_threshold_keccak_permutation instate outst true) 25 ^^^
          (do_threshold_keccak_permutation instate outst true) 50) =
          (keccakP (logicalState instate)).Aba ∧
       (do_threshold_keccak_permutation instate outst true) 1 ^^^
         ((do_threshold_keccak_permutation instate outst true) 26 ^^^
          (do_threshold_keccak_permutation instate outst true) 51) =
          (keccakP (logicalState instate)).Abe ∧
       (do_threshold_keccak_permutation instate outst true) 2 ^^^
         ((do_threshold_keccak_permutation instate outst true) 27 ^^^
          (do_threshold_keccak_permutation instate outst true) 52) =
          (keccakP (logicalState instate)).Abi ∧
       (do_threshold_keccak_permutation instate outst true) 3 ^^^
         ((do_threshold_keccak_permutation instate outst true) 28 ^^^
          (do_threshold_keccak_permutation instate outst true) 53) =
          (keccakP (logicalState instate)).Abo)) ∧
    (∀ x outst : Nat → Nat,
      (do_threshold_keccak_permutation (fun i => if i < 25 then x i else 0) outst false) 0 =
        (keccakP (LOADSTATE x 0)).Aba ∧
      (do_threshold_keccak_permutation (fun i => if i < 25 then x i else 0) outst false) 1 =
        (keccakP (LOADSTATE x 0)).Abe ∧
      (do_threshold_keccak_permutation (fun i => if i < 25 then x i else 0) outst false) 2 =
        (keccakP (LOADSTATE x 0)).Abi ∧
      (do_threshold_keccak_permutation (fun i => if i < 25 then x i else 0) outst false) 3 =
        (keccakP (LOADSTATE x 0)).Abo) := by
  constructor
  · intro instate outst
    exact ⟨dtkp_unmasked instate outst, dtkp_masked instate outst⟩
  · intro x outst
    have h := dtkp_unmasked (fun i => if i < 25 then x i else 0) outst
    rwa [logicalState_single] at h

/-- C7: two-run masking soundness: any two 75-lane input triples with
the same logical (share-wise XOR) state, run with the same
`want_masked_output` flag, produce the same logical output — identical
four output lanes when unmasked, and identical lane-wise XOR of the
three output shares' first four lanes when masked. -/
theorem threshold_masking_soundness (in1 in2 out1 out2 : Nat → Nat)
    (h : logicalState in1 = logicalState in2) :
    ((do_threshold_keccak_permutation in1 out1 false) 0 =
       (do_threshold_keccak_permutation in2 out2 false) 0 ∧
     (do_threshold_keccak_permutation in1 out1 false) 1 =
       (do_threshold_keccak_permutation in2 out2 false) 1 ∧
     (do_threshold_keccak_permutation in1 out1 false) 2 =
       (do_threshold_keccak_permutation in2 out2 false) 2 ∧
     (do_threshold_keccak_permutation in1 out1 false) 3 =
       (do_threshold_keccak_permutation in2 out2 false) 3) ∧
    (∀ k, k < 4 →
      (do_threshold_keccak_permutation in1 out1 true) k ^^^
        ((do_threshold_keccak_permutation in1 out1 true) (25 + k) ^^^
         (do_threshold_keccak_permutation in1 out1 true) (50 + k)) =
      (do_threshold_keccak_permutation in2 out2 true) k ^^^
        ((do_threshold_keccak_permutation in2 out2 true) (25 + k) ^^^
         (do_threshold_keccak_permutation in2 out2 true) (50 + k))) := by
  obtain ⟨u1a, u1b, u1c, u1d⟩ := dtkp_unmasked in1 out1
  obtain ⟨u2a, u2b, u2c, u2d⟩ := dtkp_unmasked in2 out2
  obtain ⟨m1a, m1b, m1c, m1d⟩ := dtkp_masked in1 out1
  obtain ⟨m2a, m2b, m2c, m2d⟩ := dtkp_masked in2 out2
  refine ⟨⟨?_, ?_, ?_, ?_⟩, ?_⟩
  · rw [u1a, u2a, h]
  · rw [u1b, u2b, h]
  · rw [u1c, u2c, h]
  · rw [u1d, u2d, h]
  · intro k hk
    interval_cases k
    · show _ ^^^ ((do_threshold_keccak_permutation in1 out1 true) 25 ^^^ _) = _
      rw [m1a, m2a, h]
    · show _ ^^^ ((do_threshold_keccak_permutation in1 out1 true) 26 ^^^ _) = _
      rw [m1b, m2b, h]
    · show _ ^^^ ((do_threshold_keccak_permutation in1 out1 true) 27 ^^^ _) = _
      rw [m1c, m2c, h]
    · show _ ^^^ ((do_threshold_keccak_permutation in1 out1 true) 28 ^^^ _) = _
      rw [m1d, m2d, h]

/-- Witness for C7 at the concrete input pair `(x,0,0)` and `(0,x,0)`
with `x` the state whose lane 0 is 7. -/
theorem threshold_masking_soundness_witness :
    logicalState (fun i => if i = 0 then 7 else 0) =
      logicalState (fun i => if i = 25 then 7 else 0) ∧
    ((do_threshold_keccak_permutation (fun i => if i = 0 then 7 else 0) (fun _ => 0) false) 0 =
       (do_threshold_keccak_permutation (fun i => if i = 25 then 7 else 0) (fun _ => 0) false) 0 ∧
     (do_threshold_keccak_permutation (fun i => if i = 0 then 7 else 0) (fun _ => 0) false) 1 =
       (do_threshold_keccak_permutation (fun i => if i = 25 then 7 else 0) (fun _ => 0) false) 1 ∧
     (do_threshold_keccak_permutation (fun i => if i = 0 then 7 else 0) (fun _ => 0) false) 2 =
       (do_threshold_keccak_permutation (fun i => if i = 25 then 7 else 0) (fun _ => 0) false) 2 ∧
     (do_threshold_keccak_permutation (fun i => if i = 0 then 7 else 0) (fun _ => 0) false) 3 =
       (do_threshold_keccak_permutation (fun i => if i = 25 then 7 else 0) (fun _ => 0) false) 3) ∧
    (∀ k, k < 4 →
      (do_threshold_keccak_permutation (fun i => if i = 0 then 7 else 0) (fun _ => 0) true) k ^^^
        ((do_threshold_keccak_permutation (fun i => if i = 0 then 7 else 0) (fun _ => 0) true) (25 + k) ^^^
         (do_threshold_keccak_permutation (fun i => if i = 0 then 7 else 0) (fun _ => 0) true) (50 + k)) =
      (do_threshold_keccak_permutation (fun i => if i = 25 then 7 else 0) (fun _ => 0) true) k ^^^
        ((do_threshold_keccak_permutation (fun i => if i = 25 then 7 else 0) (fun _ => 0) true) (25 + k) ^^^
         (do_threshold_keccak_permutation (fun i => if i = 25 then 7 else 0) (fun _ => 0) true) (50 + k))) := by
  have h : logicalState (fun i => if i = 0 then 7 else 0) =
      logicalState (fun i => if i = 25 then 7 else 0) := by
    apply St.ext <;> simp [logicalState, collapseSt, LOADSTATE]
  obtain ⟨h1, h2⟩ := threshold_masking_soundness
    (fun i => if i = 0 then 7 else 0) (fun i => if i = 25 then 7 else 0)
    (fun _ => 0) (fun _ => 0) h
  exact ⟨h, h1, h2⟩

/-! ## The F-chain driver (`f-threshold.c`)

`SPX_N` is `8 * N` bytes for `N = SPX_N/8 ∈ {2,3,4}` lanes; byte buffers
are functions `Nat → Nat` (byte index to byte value), lane arrays are
functions `Nat → Nat` (lane index to lane value). -/

/-- One lane of `transform_f`: the inner loop
`for (i=7; i>=0; i--) val = (val << 8) | in[i];` reading eight bytes at
`base`. -/
def laneFrom (inp : Nat → Nat) (base : Nat) : Nat :=
  List.foldl (fun val i => (val <<< 8) ||| inp (base + i)) 0 [7, 6, 5, 4, 3, 2, 1, 0]

/-- `OFFSET_HASH = N + 32/8`: the lane offset of the running hash. -/
def OFFSET_HASH (N : Nat) : Nat := N + 32 / 8

/-- Embedding of `set_up_f_block`: `memset` of the tail lanes, then the
`transform_f` writes of the public seed, the 32-byte address, and the
three hash shares, then the two SHAKE-256 padding writes.  `pub_seed`
and `addrBytes` are the byte buffers `ctx->pub_seed` and `leaf_addr`;
`prf_output` is the 3·SPX_N-byte share buffer.  Returns the new chain
state and the returned offset `OFFSET_HASH`. -/
def set_up_f_block (N : Nat) (chain_state : Nat → Nat)
    (prf_output pub_seed addrBytes : Nat → Nat) : (Nat → Nat) × Nat :=
  let cs1 := fun i => if OFFSET_HASH N + N ≤ i ∧ i < 3 * 25 then 0 else chain_state i
  let cs2 := fun i => if i < N then laneFrom pub_seed (8 * i) else cs1 i
  let cs3 := fun i => if N ≤ i ∧ i < N + 4 then laneFrom addrBytes (8 * (i - N)) else cs2 i
  let cs4 := fun i => if OFFSET_HASH N ≤ i ∧ i < OFFSET_HASH N + N then
      laneFrom prf_output (8 * (i - OFFSET_HASH N)) else cs3 i
  let cs5 := fun i => if OFFSET_HASH N + 25 ≤ i ∧ i < OFFSET_HASH N + 25 + N then
      laneFrom (fun b => prf_output (8 * N + b)) (8 * (i - (OFFSET_HASH N + 25))) else cs4 i
  let cs6 := fun i => if OFFSET_HASH N + 50 ≤ i ∧ i < OFFSET_HASH N + 50 + N then
      laneFrom (fun b => prf_output (16 * N + b)) (8 * (i - (OFFSET_HASH N + 50))) else cs5 i
  let cs7 := Function.update cs6 (OFFSET_HASH N + N) 0x1f
  let cs8 := Function.update cs7 16 (cs7 16 ^^^ (1 <<< 63))
  (cs8, OFFSET_HASH N)

/-- Embedding of `increment_hash_addr_in_chain_state`:
`chain_state[N + OFF/8] += 1 << (8*(OFF%8))` with `uint64_t` wrap-around,
where `OFF` is `SPX_OFFSET_HASH_ADDR` (a `params.h` constant not in
`src/`, taken as a parameter). -/
def increment_hash_addr_in_chain_state (N OFF : Nat) (chain_state : Nat → Nat) : Nat → Nat :=
  Function.update chain_state (N + OFF / 8)
    ((chain_state (N + OFF / 8) + 1 <<< (8 * (OFF % 8))) % 2 ^ 64)

/-- Embedding of `f_transform`: run the threshold permutation on the
chain state (with `output_state` initially holding the arbitrary stack
garbage `g`) and copy the first `SPX_N` bytes (= `N` lanes) of each
relevant output share back into the chain state. -/
def f_transform (N : Nat) (chain_state g : Nat → Nat) (keep_blinded : Bool) : Nat → Nat :=
  let output_state := do_threshold_keccak_permutation chain_state g keep_blinded
  fun i =>
    if OFFSET_HASH N ≤ i ∧ i < OFFSET_HASH N + N then
      output_state (i - OFFSET_HASH N)
    else if keep_blinded = true ∧ OFFSET_HASH N + 25 ≤ i ∧ i < OFFSET_HASH N + 25 + N then
      output_state (i - OFFSET_HASH N)
    else if keep_blinded = true ∧ OFFSET_HASH N + 50 ≤ i ∧ i < OFFSET_HASH N + 50 + N then
      output_state (i - OFFSET_HASH N)
    else chain_state i

/-- C9: `increment_hash_addr_in_chain_state` adds exactly
`1 << (8*(OFFSET_HASH_ADDR mod 8))` (modulo `2^64`, as `uint64_t`
addition) to lane `N + OFFSET_HASH_ADDR/8` of share 0, and leaves every
other lane of all three shares unchanged. -/
theorem increment_hash_addr_effect (N OFF : Nat) (cs : Nat → Nat) :
    increment_hash_addr_in_chain_state N OFF cs (N + OFF / 8) =
      (cs (N + OFF / 8) + 1 <<< (8 * (OFF % 8))) % 2 ^ 64 ∧
    ∀ j, j ≠ N + OFF / 8 → increment_hash_addr_in_chain_state N OFF cs j = cs j := by
  constructor
  · simp [increment_hash_addr_in_chain_state]
  · intro j hj
    simp [increment_hash_addr_in_chain_state, Function.update_apply, hj]

/-- Witness for C9 at `N = 2`, `OFFSET_HASH_ADDR = 25`, lane 0. -/
theorem increment_hash_addr_effect_witness :
    (0 : Nat) ≠ 2 + 25 / 8 ∧
    increment_hash_addr_in_chain_state 2 25 (fun _ => 3) 0 = 3 :=
  ⟨by decide, (increment_hash_addr_effect 2 25 (fun _ => 3)).2 0 (by decide)⟩

set_option maxHeartbeats 2000000 in
/-- C4: `set_up_f_block` establishes exactly the specified chain-state
layout: public seed in lanes `[0..N)`, the 32-byte address in lanes
`[N..N+4)`, the three n-byte shares at `[N+4..N+4+N)` and the parallel
slots at +25 and +50, the SHAKE-256 padding byte 0x1F as first byte of
lane `N+4+N` of share 0, the top bit of lane 16 of share 0, every other
lane of all three shares zero, and return value `N+4`. -/
theorem set_up_f_block_layout (N : Nat) (cs prf_output pub_seed addrBytes : Nat → Nat)
    (hN2 : 2 ≤ N) (hN4 : N ≤ 4) :
    (set_up_f_block N cs prf_output pub_seed addrBytes).2 = N + 4 ∧
    ∀ i, i < 75 →
      (set_up_f_block N cs prf_output pub_seed addrBytes).1 i =
        if i < N then laneFrom pub_seed (8 * i)
        else if i < N + 4 then laneFrom addrBytes (8 * (i - N))
        else if i < N + 4 + N then laneFrom prf_output (8 * (i - (N + 4)))
        else if i = N + 4 + N then 0x1f
        else if i = 16 then 1 <<< 63
        else if N + 4 + 25 ≤ i ∧ i < N + 4 + 25 + N then
          laneFrom (fun b => prf_output (8 * N + b)) (8 * (i - (N + 4 + 25)))
        else if N + 4 + 50 ≤ i ∧ i < N + 4 + 50 + N then
          laneFrom (fun b => prf_output (16 * N + b)) (8 * (i - (N + 4 + 50)))
        else 0 := by
  constructor
  · rfl
  · intro i hi
    have hOH : OFFSET_HASH N = N + 4 := rfl
    simp only [set_up_f_block, Function.update_apply, hOH]
    split_ifs <;> first | rfl | omega

/-- Witness for C4 at `N = 2` with constant byte buffers, lane 20. -/
theorem set_up_f_block_layout_witness :
    (2 : Nat) ≤ 2 ∧ (2 : Nat) ≤ 4 ∧
    (set_up_f_block 2 (fun _ => 5) (fun _ => 1) (fun _ => 2) (fun _ => 3)).2 = 2 + 4 ∧
    (set_up_f_block 2 (fun _ => 5) (fun _ => 1) (fun _ => 2) (fun _ => 3)).1 20 = 0 := by
  have h := set_up_f_block_layout 2 (fun _ => 5) (fun _ => 1) (fun _ => 2) (fun _ => 3)
    (by decide) (by decide)
  refine ⟨by decide, by decide, h.1, ?_⟩
  have h20 := h.2 20 (by decide)
  simpa using h20

/-- The C8 invariant: in the chain state, shares 1 and 2 carry only the
running-hash slots — every lane of shares 1 and 2 outside
`[OFFSET_HASH+25, OFFSET_HASH+25+N)` and `[OFFSET_HASH+50, OFFSET_HASH+50+N)`
is zero, so the public-seed, address and padding portions live in share 0
only. -/
def sharesZeroOutsideHash (N : Nat) (cs : Nat → Nat) : Prop :=
  ∀ i, 25 ≤ i → i < 75 →
    ¬ (OFFSET_HASH N + 25 ≤ i ∧ i < OFFSET_HASH N + 25 + N) →
    ¬ (OFFSET_HASH N + 50 ≤ i ∧ i < OFFSET_HASH N + 50 + N) →
    cs i = 0

/-- C8: the share-0-only invariant holds after `set_up_f_block`, is
preserved by `f_transform` and by `increment_hash_addr_in_chain_state`,
and between successive permutation calls only the running-hash lanes
(`f_transform`) and the address hash byte's lane (`increment…`) change. -/
theorem chain_state_share_invariant (N OFF : Nat) (hN2 : 2 ≤ N) (hN4 : N ≤ 4)
    (hOFF : OFF < 32) :
    (∀ cs prf_output pub_seed addrBytes,
      sharesZeroOutsideHash N (set_up_f_block N cs prf_output pub_seed addrBytes).1) ∧
    (∀ cs g keep, sharesZeroOutsideHash N cs →
      sharesZeroOutsideHash N (f_transform N cs g keep)) ∧
    (∀ cs g keep i,
      ¬ (OFFSET_HASH N ≤ i ∧ i < OFFSET_HASH N + N) →
      ¬ (OFFSET_HASH N + 25 ≤ i ∧ i < OFFSET_HASH N + 25 + N) →
      ¬ (OFFSET_HASH N + 50 ≤ i ∧ i < OFFSET_HASH N + 50 + N) →
      f_transform N cs g keep i = cs i) ∧
    (N + OFF / 8 < OFFSET_HASH N ∧
     ∀ cs, (∀ j, j ≠ N + OFF / 8 → increment_hash_addr_in_chain_state N OFF cs j = cs j) ∧
       (sharesZeroOutsideHash N cs →
        sharesZeroOutsideHash N (increment_hash_addr_in_chain_state N OFF cs))) := by
  have hOH : OFFSET_HASH N = N + 4 := rfl
  refine ⟨?_, ?_, ?_, ?_⟩
  · intro cs prf_output pub_seed addrBytes i h25 h75 hs1 hs2
    have h := (set_up_f_block_layout N cs prf_output pub_seed addrBytes hN2 hN4).2 i h75
    rw [hOH] at hs1 hs2
    rw [h]
    split_ifs <;> first | rfl | omega
  · intro cs g keep hinv i h25 h75 hs1 hs2
    simp only [f_transform]
    rw [if_neg (by rw [hOH]; omega),
      if_neg (by rintro ⟨-, hr1, hr2⟩; exact hs1 ⟨hr1, hr2⟩),
      if_neg (by rintro ⟨-, hr1, hr2⟩; exact hs2 ⟨hr1, hr2⟩)]
    exact hinv i h25 h75 hs1 hs2
  · intro cs g keep i h1 h2 h3
    simp only [f_transform]
    rw [if_neg h1, if_neg (by rintro ⟨-, hr1, hr2⟩; exact h2 ⟨hr1, hr2⟩),
      if_neg (by rintro ⟨-, hr1, hr2⟩; exact h3 ⟨hr1, hr2⟩)]
  · refine ⟨by rw [hOH]; omega, ?_⟩
    intro cs
    constructor
    · intro j hj
      simp [increment_hash_addr_in_chain_state, Function.update_apply, hj]
    · intro hinv i h25 h75 hs1 hs2
      have hne : i ≠ N + OFF / 8 := by omega
      simp only [increment_hash_addr_in_chain_state, Function.update_apply, if_neg hne]
      exact hinv i h25 h75 hs1 hs2

/-- Witness for C8 at `N = 2`, `OFFSET_HASH_ADDR = 25`. -/
theorem chain_state_share_invariant_witness :
    (2 : Nat) ≤ 2 ∧ (2 : Nat) ≤ 4 ∧ (25 : Nat) < 32 ∧ 2 + 25 / 8 < OFFSET_HASH 2 :=
  ⟨by decide, by decide, by decide,
   (chain_state_share_invariant 2 25 (by decide) (by decide) (by decide)).2.2.2.1⟩

/-! ## The WOTS chain loop (`wotsx1.c`) -/

/-- Modelled from the spec (`params.h` is not in `src/`): the Winternitz
base `w` is fixed to 16 for all parameter sets. -/
def SPX_WOTS_W : Nat := 16

/-- Embedding of `untransform_f`: byte `b` of the serialised lanes. The
C loop writes `result[j] = val & 0xff; val >>= 8` for each lane. -/
def untransform_f (lanes : Nat → Nat) (b : Nat) : Nat :=
  (lanes (b / 8) >>> (8 * (b % 8))) &&& 0xff

/-- Trace events of the chain loop: one `ftrans keep` per `f_transform`
call and one `inc` per `increment_hash_addr_in_chain_state` call. -/
inductive WotsEvent where
  | ftrans : Bool → WotsEvent
  | inc : WotsEvent
deriving DecidableEq

/-- The `k == wots_k` signature write in the chain loop: serialise the
current hash (XOR-collapsing the three shares if still blinded) into
the signature buffer. -/
def wots_sig_update (N wots_k k : Nat) (not_last : Bool) (cs sig : Nat → Nat) : Nat → Nat :=
  if k = wots_k then
    fun b => if b < 8 * N then
      untransform_f
        (if not_last then
          fun m => cs (m + OFFSET_HASH N) ^^^ cs (m + OFFSET_HASH N + 25) ^^^
            cs (m + OFFSET_HASH N + 50)
        else fun m => cs (m + OFFSET_HASH N)) b
    else sig b
  else sig

/-- Embedding of the per-chain loop `for (k=0;;k++)` of
`wots_gen_leafx1` (lines 62–105): check the signature position, break
when the chain is done, clear `not_last_f` at `k == SPX_WOTS_W - 2`,
call `f_transform` and then `increment_hash_addr_in_chain_state`.  The
returned list records the `f_transform` (with its `keep_blinded`
argument) and increment calls in order.  `fuel` bounds the number of
iterations; the loop breaks by itself after `SPX_WOTS_W` iterations. -/
def wots_chain_loop (N OFF : Nat) (g : Nat → Nat) (wots_k : Nat) :
    Nat → Nat → Bool → (Nat → Nat) → (Nat → Nat) → List WotsEvent →
      ((Nat → Nat) × (Nat → Nat) × List WotsEvent)
  | 0, _, _, cs, sig, ev => (cs, sig, ev)
  | fuel + 1, k, not_last, cs, sig, ev =>
    if not_last = false then (cs, wots_sig_update N wots_k k not_last cs sig, ev)
    else if k = SPX_WOTS_W - 2 then
      wots_chain_loop N OFF g wots_k fuel (k + 1) false
        (increment_hash_addr_in_chain_state N OFF (f_transform N cs g false))
        (wots_sig_update N wots_k k not_last cs sig)
        (ev ++ [WotsEvent.ftrans false, WotsEvent.inc])
    else
      wots_chain_loop N OFF g wots_k fuel (k + 1) not_last
        (increment_hash_addr_in_chain_state N OFF (f_transform N cs g not_last))
        (wots_sig_update N wots_k k not_last cs sig)
        (ev ++ [WotsEvent.ftrans not_last, WotsEvent.inc])

theorem wcl_step_mid {N OFF : Nat} {g cs sig : Nat → Nat} {wots_k fuel k : Nat}
    {ev : List WotsEvent} (hk : k ≠ SPX_WOTS_W - 2) :
    wots_chain_loop N OFF g wots_k (fuel + 1) k true cs sig ev =
      wots_chain_loop N OFF g wots_k fuel (k + 1) true
        (increment_hash_addr_in_chain_state N OFF (f_transform N cs g true))
        (wots_sig_update N wots_k k true cs sig)
        (ev ++ [WotsEvent.ftrans true, WotsEvent.inc]) := by
  simp only [wots_chain_loop]
  rw [if_neg (by simp), if_neg hk]

theorem wcl_step_last {N OFF : Nat} {g cs sig : Nat → Nat} {wots_k fuel k : Nat}
    {ev : List WotsEvent} (hk : k = SPX_WOTS_W - 2) :
    wots_chain_loop N OFF g wots_k (fuel + 1) k true cs sig ev =
      wots_chain_loop N OFF g wots_k fuel (k + 1) false
        (increment_hash_addr_in_chain_state N OFF (f_transform N cs g false))
        (wots_sig_update N wots_k k true cs sig)
        (ev ++ [WotsEvent.ftrans false, WotsEvent.inc]) := by
  subst hk
  simp only [wots_chain_loop]
  rw [if_neg (by simp)]
  simp

theorem wcl_step_stop {N OFF : Nat} {g cs sig : Nat → Nat} {wots_k fuel k : Nat}
    {ev : List WotsEvent} :
    wots_chain_loop N OFF g wots_k (fuel + 1) k false cs sig ev =
      (cs, wots_sig_update N wots_k k false cs sig, ev) := by
  simp only [wots_chain_loop]
  simp

/-- C5: for every WOTS chain processed by the `wots_gen_leafx1` chain
loop, `f_transform` (hence the threshold Keccak permutation) is invoked
exactly `SPX_WOTS_W - 1 = 15` times; the last invocation uses
`keep_blinded = 0` and all earlier ones use `keep_blinded = 1`, and
`increment_hash_addr_in_chain_state` is called after each invocation —
the event trace is exactly fourteen `(ftrans true, inc)` pairs followed
by one `(ftrans false, inc)` pair, for every signature position
`wots_k` and all buffer contents. -/
theorem wots_chain_transform_schedule (N OFF : Nat) (g cs sig : Nat → Nat) (wots_k : Nat) :
    (wots_chain_loop N OFF g wots_k 17 0 true cs sig []).2.2 =
      [WotsEvent.ftrans true, WotsEvent.inc,
       WotsEvent.ftrans true, WotsEvent.inc,
       WotsEvent.ftrans true, WotsEvent.inc,
       WotsEvent.ftrans true, WotsEvent.inc,
       WotsEvent.ftrans true, WotsEvent.inc,
       WotsEvent.ftrans true, WotsEvent.inc,
       WotsEvent.ftrans true, WotsEvent.inc,
       WotsEvent.ftrans true, WotsEvent.inc,
       WotsEvent.ftrans true, WotsEvent.inc,
       WotsEvent.ftrans true, WotsEvent.inc,
       WotsEvent.ftrans true, WotsEvent.inc,
       WotsEvent.ftrans true, WotsEvent.inc,
       WotsEvent.ftrans true, WotsEvent.inc,
       WotsEvent.ftrans true, WotsEvent.inc,
       WotsEvent.ftrans false, WotsEvent.inc] := by
  rw [wcl_step_mid (by decide)]
  rw [wcl_step_mid (by decide)]
  rw [wcl_step_mid (by decide)]
  rw [wcl_step_mid (by decide)]
  rw [wcl_step_mid (by decide)]
  rw [wcl_step_mid (by decide)]
  rw [wcl_step_mid (by decide)]
  rw [wcl_step_mid (by decide)]
  rw [wcl_step_mid (by decide)]
  rw [wcl_step_mid (by decide)]
  rw [wcl_step_mid (by decide)]
  rw [wcl_step_mid (by decide)]
  rw [wcl_step_mid (by decide)]
  rw [wcl_step_mid (by decide)]
  rw [wcl_step_last (by decide)]
  rw [wcl_step_stop]
  simp

/-! ## The PRF tree (`prf.c`)

The masked PRF hash `prf_hash_function` and the `address.h` helpers are
external collaborators not present in `src/`; they are modelled from the
spec.  3n-byte share buffers are an abstract type `V`, the Sphincs
context an abstract type `γ`, and `prf : γ → Addr → V → V` the opaque
masked PRF hash. -/

/-- Modelled from the spec (`address.h` is not in `src/`): the 32-byte
address block as a record of its fields; the spec describes the address
helpers as pure field setters on this block.  Only the fields the CORE
sets are represented. -/
structure Addr where
  typ : Nat
  layer_addr : Nat
  tree_addr : Nat
  prf_index : Nat
deriving DecidableEq

/-- Modelled from the spec: `set_prf_index` sets the PRF-index field. -/
def set_prf_index (a : Addr) (v : Nat) : Addr := { a with prf_index := v }

/-- Modelled from the spec: `set_type` sets the type field. -/
def set_type (a : Addr) (t : Nat) : Addr := { a with typ := t }

/-- Modelled from the spec: `set_layer_addr` sets the layer field. -/
def set_layer_addr (a : Addr) (l : Nat) : Addr := { a with layer_addr := l }

/-- Modelled from the spec: `set_tree_addr` sets the tree-index field. -/
def set_tree_addr (a : Addr) (t : Nat) : Addr := { a with tree_addr := t }

theorem set_prf_index_twice (a : Addr) (v w : Nat) :
    set_prf_index (set_prf_index a v) w = set_prf_index a w := rfl

/-- The bottom-up path stack of `eval_single_prf_leaf` /
`initialize_prf_iter`: `while (i > 0) { stack[sp++] = i; i = (i-1)/4; }`.
`pathToRoot v` lists the nodes from `v` up to (excluding) the root. -/
def pathToRoot (v : Nat) : List Nat :=
  if v = 0 then [] else v :: pathToRoot ((v - 1) / 4)
termination_by v
decreasing_by
  have : v ≠ 0 := by assumption
  omega

section PrfTree

variable {γ V : Type}

/-- Embedding of `eval_single_prf_leaf`: convert the external index to
the internal node number `i + (n+1)/3`, then walk the path top-down,
hashing node by node with `set_prf_index(addr, v)`. -/
def eval_single_prf_leaf (prf : γ → Addr → V → V) (ctx : γ) (root : V) (i n : Nat)
    (addr : Addr) : V :=
  (pathToRoot (i + (n + 1) / 3)).reverse.foldl
    (fun prev v => prf ctx (set_prf_index addr v) prev) root

/-- The `struct prf_iter` state (from `prf.h`): per-depth node numbers,
child counts and node values, the borrowed context and the owned copy of
the address. -/
structure prf_iter (γ V : Type) where
  num_node : Nat
  min_node : Nat
  stop_node : Int
  cur_node : Int
  node : Nat → Nat
  count : Nat → Nat
  ctx : γ
  addr : Addr
  node_value : Nat → V

/-- The `initialize_prf_iter` path loop
`for (j=sp-1, k=1; j>=0; j--, k++) { … }`: fill depth `k` from the next
stack entry (the list is the top-down path), computing the node value by
the PRF from the value one level up; also returns the list of node
numbers passed to `prf_hash_function` (the instrumentation trace). -/
def initFill (prf : γ → Addr → V → V) :
    List Nat → Nat → prf_iter γ V → List Nat → prf_iter γ V × List Nat
  | [], _, st, tr => (st, tr)
  | v :: rest, k, st, tr =>
    initFill prf rest (k + 1)
      { st with
        node := Function.update st.node k v,
        count := Function.update st.count k ((v + 3) % 4),
        addr := set_prf_index st.addr v,
        node_value := Function.update st.node_value k
          (prf st.ctx (set_prf_index st.addr v) (st.node_value (k - 1))) }
      (tr ++ [v])

/-- Embedding of `initialize_prf_iter`: set `min_node = (n+1)/3`,
`stop_node = stop + min_node`, save the address, put the root seed at
depth 0 and descend along the path to `min_node`.  The uninitialised
tail entries of the C arrays are modelled as `0` (for `node`/`count`)
and `seed` (for `node_value`); the code never reads them.  The second
component is the instrumentation trace of `prf_hash_function` calls. -/
def initialize_prf_iter (prf : γ → Addr → V → V) (n stop : Nat) (seed : V) (ctx : γ)
    (addr : Addr) : prf_iter γ V × List Nat :=
  initFill prf (pathToRoot ((n + 1) / 3)).reverse 1
    { num_node := (pathToRoot ((n + 1) / 3)).length + 1
      min_node := (n + 1) / 3
      stop_node := (stop : Int) + (((n + 1) / 3 : Nat) : Int)
      cur_node := (((n + 1) / 3 : Nat) : Int)
      node := fun _ => 0
      count := fun _ => 0
      ctx := ctx
      addr := addr
      node_value := fun _ => seed } []

/-- The carry search of `next_prf_iter`:
`i = num_node; for (;;) { if (i == 0) break; i--; if (count[i] < 3) break; }`;
`findDigit count m` is the final value of `i` when started at `m`. -/
def findDigit (count : Nat → Nat) : Nat → Nat
  | 0 => 0
  | i + 1 => if count i < 3 then i else findDigit count i

/-- The reset loop of `next_prf_iter`:
`for (; i < num_node; i++) { count[i]=0; node[i]=4*node[i-1]+1; … }`,
also accumulating the instrumentation trace. -/
def resetLoop (prf : γ → Addr → V → V) (j : Nat) (st : prf_iter γ V) (tr : List Nat) :
    prf_iter γ V × List Nat :=
  if j < st.num_node then
    resetLoop prf (j + 1)
      { st with
        count := Function.update st.count j 0,
        node := Function.update st.node j (4 * st.node (j - 1) + 1),
        addr := set_prf_index st.addr (4 * st.node (j - 1) + 1),
        node_value := Function.update st.node_value j
          (prf st.ctx (set_prf_index st.addr (4 * st.node (j - 1) + 1))
            (st.node_value (j - 1))) }
      (tr ++ [4 * st.node (j - 1) + 1])
  else (st, tr)
termination_by st.num_node - j
decreasing_by
  simp_wf
  omega

/-- Embedding of `next_prf_iter`: returns the C return value, the
emitted share triple (`none` when nothing is written to the output
buffer), the new iterator state, and the instrumentation trace of
`prf_hash_function` calls made during the advance.  The function-level
`it->cur_node++` runs on every path except the early return, including
right after the stop branch stores −1 — so the stored value there
becomes 0, not −1. -/
def next_prf_iter (prf : γ → Addr → V → V) (it : prf_iter γ V) :
    Int × Option V × prf_iter γ V × List Nat :=
  if it.cur_node = -1 then (-1, none, it, [])
  else
    let ret := it.cur_node - (it.min_node : Int)
    let out := it.node_value (it.num_node - 1)
    if it.cur_node = it.stop_node then
      -- cur_node = -1, immediately followed by the function-level cur_node++
      (ret, some out, { it with cur_node := -1 + 1 }, [])
    else
      let i := findDigit it.count it.num_node
      if 0 < i then
        let stepped :=
          resetLoop prf (i + 1)
            { it with
              count := Function.update it.count i (it.count i + 1),
              node := Function.update it.node i (it.node i + 1),
              addr := set_prf_index it.addr (it.node i + 1),
              node_value := Function.update it.node_value i
                (prf it.ctx (set_prf_index it.addr (it.node i + 1))
                  (it.node_value (i - 1))) }
            [it.node i + 1]
        (ret, some out, { stepped.1 with cur_node := stepped.1.cur_node + 1 }, stepped.2)
      else
        let stepped := resetLoop prf (i + 1) { it with num_node := it.num_node + 1 } []
        (ret, some out, { stepped.1 with cur_node := stepped.1.cur_node + 1 }, stepped.2)

end PrfTree

section PrfIterProofs

variable {γ V : Type}

/-- The reference node value of the PRF tree: the root (node 0) carries
the seed; a non-root node `v` carries
`prf (set_prf_index addr v) (value of parent (v-1)/4)`. -/
def evalNode (prf : γ → Addr → V → V) (ctx : γ) (seed : V) (addr : Addr) (v : Nat) : V :=
  if v = 0 then seed
  else prf ctx (set_prf_index addr v) (evalNode prf ctx seed addr ((v - 1) / 4))
termination_by v
decreasing_by
  have : v ≠ 0 := by assumption
  omega

theorem evalNode_zero (prf : γ → Addr → V → V) (ctx : γ) (seed : V) (addr : Addr) :
    evalNode prf ctx seed addr 0 = seed := by
  rw [evalNode]
  simp

theorem evalNode_pos (prf : γ → Addr → V → V) (ctx : γ) (seed : V) (addr : Addr) (v : Nat)
    (h : v ≠ 0) :
    evalNode prf ctx seed addr v =
      prf ctx (set_prf_index addr v) (evalNode prf ctx seed addr ((v - 1) / 4)) := by
  rw [evalNode]
  simp [h]

theorem pathToRoot_zero : pathToRoot 0 = [] := by
  rw [pathToRoot]
  simp

theorem pathToRoot_pos (v : Nat) (h : v ≠ 0) :
    pathToRoot v = v :: pathToRoot ((v - 1) / 4) := by
  rw [pathToRoot]
  simp [h]

theorem pathToRoot_mem_pos (v : Nat) : ∀ x ∈ pathToRoot v, 0 < x := by
  induction v using Nat.strong_induction_on with
  | _ v ih =>
    intro x hx
    by_cases h : v = 0
    · rw [h, pathToRoot_zero] at hx
      simp at hx
    · rw [pathToRoot_pos v h] at hx
      rcases List.mem_cons.mp hx with h1 | h1
      · omega
      · exact ih ((v - 1) / 4) (by omega) x h1

/-- `eval_single_prf_leaf` computes exactly the reference node value of
the internal node `i + (n+1)/3`. -/
theorem eval_single_prf_leaf_eq_evalNode (prf : γ → Addr → V → V) (ctx : γ) (root : V)
    (i n : Nat) (addr : Addr) :
    eval_single_prf_leaf prf ctx root i n addr =
      evalNode prf ctx root addr (i + (n + 1) / 3) := by
  have main : ∀ v : Nat, (pathToRoot v).reverse.foldl
      (fun prev w => prf ctx (set_prf_index addr w) prev) root =
      evalNode prf ctx root addr v := by
    intro v
    induction v using Nat.strong_induction_on with
    | _ v ih =>
      by_cases h : v = 0
      · rw [h, pathToRoot_zero, evalNode_zero]
        rfl
      · rw [pathToRoot_pos v h, evalNode_pos prf ctx root addr v h]
        simp only [List.reverse_cons, List.foldl_append, List.foldl_cons, List.foldl_nil]
        rw [ih ((v - 1) / 4) (by omega)]
  exact main (i + (n + 1) / 3)

/-- The top-down path of node `v`, root included. -/
def pathD (v : Nat) : List Nat := 0 :: (pathToRoot v).reverse

theorem pathD_zero : pathD 0 = [0] := by
  simp [pathD, pathToRoot_zero]

theorem pathD_pos (v : Nat) (h : v ≠ 0) : pathD v = pathD ((v - 1) / 4) ++ [v] := by
  simp [pathD, pathToRoot_pos v h]

theorem pathD_length_pos (v : Nat) : 0 < (pathD v).length := by
  simp [pathD]

theorem pathD_getD_zero (v : Nat) : (pathD v).getD 0 0 = 0 := rfl

theorem pathD_last (v : Nat) : (pathD v).getD ((pathD v).length - 1) 0 = v := by
  induction v using Nat.strong_induction_on with
  | _ v ih =>
    by_cases h : v = 0
    · subst h
      rw [pathD_zero]
      rfl
    · rw [pathD_pos v h]
      have hlen : (pathD ((v - 1) / 4) ++ [v]).length = (pathD ((v - 1) / 4)).length + 1 := by
        simp
      rw [hlen]
      simp only [Nat.add_sub_cancel]
      rw [List.getD_eq_getElem?_getD, List.getElem?_concat_length]
      rfl

theorem pathD_length_two (u : Nat) (h : 2 ≤ (pathD u).length) : u ≠ 0 := by
  intro h0
  rw [h0, pathD_zero] at h
  simp at h

theorem pathD_chain (v : Nat) : ∀ k, k + 1 < (pathD v).length →
    0 < (pathD v).getD (k + 1) 0 ∧
    ((pathD v).getD (k + 1) 0 - 1) / 4 = (pathD v).getD k 0 := by
  induction v using Nat.strong_induction_on with
  | _ v ih =>
    intro k hk
    by_cases h : v = 0
    · subst h
      rw [pathD_zero] at hk
      simp at hk
    · rw [pathD_pos v h] at hk ⊢
      simp only [List.length_append, List.length_cons, List.length_nil] at hk
      rcases Nat.lt_or_ge (k + 1) (pathD ((v - 1) / 4)).length with hlt | hge
      · rw [List.getD_append _ _ _ _ hlt, List.getD_append _ _ _ _ (by omega)]
        exact ih ((v - 1) / 4) (by omega) k hlt
      · have hk1 : k + 1 = (pathD ((v - 1) / 4)).length := by omega
        have h1 : (pathD ((v - 1) / 4) ++ [v]).getD (k + 1) 0 = v := by
          rw [hk1, List.getD_eq_getElem?_getD, List.getElem?_concat_length]
          rfl
        have h2 : (pathD ((v - 1) / 4) ++ [v]).getD k 0 = (v - 1) / 4 := by
          rw [List.getD_append _ _ _ _ (by omega)]
          have := pathD_last ((v - 1) / 4)
          rwa [show (pathD ((v - 1) / 4)).length - 1 = k by omega] at this
        rw [h1, h2]
        omega

theorem mem_pathD (v x : Nat) : x ∈ pathD v ↔ x = 0 ∨ x ∈ pathToRoot v := by
  simp [pathD, List.mem_reverse]

/-- The left spine starting at `u`: `leftChain u m = [u, 4u+1, …]` of
length `m`. -/
def leftChain (u : Nat) : Nat → List Nat
  | 0 => []
  | m + 1 => u :: leftChain (4 * u + 1) m

/-- The `m`-fold iterate of `x ↦ 4x+1` from `u`. -/
def leftN (u : Nat) : Nat → Nat
  | 0 => u
  | m + 1 => 4 * leftN u m + 1

theorem leftN_shift (m : Nat) : ∀ u, leftN u (m + 1) = leftN (4 * u + 1) m := by
  induction m with
  | zero => intro u; rfl
  | succ m ih =>
    intro u
    show 4 * leftN u (m + 1) + 1 = leftN (4 * u + 1) (m + 1)
    rw [ih u]
    rfl

theorem leftChain_length (m : Nat) : ∀ u, (leftChain u m).length = m := by
  induction m with
  | zero => intro u; rfl
  | succ m ih =>
    intro u
    show (leftChain (4 * u + 1) m).length + 1 = m + 1
    rw [ih]

theorem leftChain_getD (m : Nat) : ∀ u k, k < m → (leftChain u m).getD k 0 = leftN u k := by
  induction m with
  | zero => intro u k hk; omega
  | succ m ih =>
    intro u k hk
    match k with
    | 0 => rfl
    | k + 1 =>
      show (leftChain (4 * u + 1) m).getD k 0 = leftN u (k + 1)
      rw [ih (4 * u + 1) k (by omega), leftN_shift]

theorem leftChain_snoc (m : Nat) : ∀ u, leftChain u (m + 1) = leftChain u m ++ [leftN u m] := by
  induction m with
  | zero => intro u; rfl
  | succ m ih =>
    intro u
    show u :: leftChain (4 * u + 1) (m + 1) = (u :: leftChain (4 * u + 1) m) ++ [leftN u (m + 1)]
    rw [ih (4 * u + 1), leftN_shift]
    rfl

theorem findDigit_spec (c : Nat → Nat) (h0 : c 0 < 3) : ∀ m, 0 < m →
    findDigit c m < m ∧ c (findDigit c m) < 3 ∧
    ∀ k, findDigit c m < k → k < m → 3 ≤ c k := by
  intro m
  induction m with
  | zero => omega
  | succ m ih =>
    intro _
    have hstep : findDigit c (m + 1) = if c m < 3 then m else findDigit c m := rfl
    by_cases hm : c m < 3
    · rw [hstep, if_pos hm]
      exact ⟨by omega, hm, by intro k hk1 hk2; omega⟩
    · rw [hstep, if_neg hm]
      rcases Nat.eq_zero_or_pos m with h | h
      · subst h
        have h00 : findDigit c 0 = 0 := rfl
        rw [h00]
        exact ⟨by omega, h0, by intro k hk1 hk2; omega⟩
      · obtain ⟨hb, hc, hk⟩ := ih h
        refine ⟨by omega, hc, ?_⟩
        intro k hk1 hk2
        rcases Nat.lt_or_ge k m with h' | h'
        · exact hk k hk1 h'
        · have : k = m := by omega
          subst this
          omega

/-- Incrementing a node number whose deepest non-3 digit is at depth
`i ≥ 1`: the new path keeps the prefix below `i`, increments the node at
`i`, and descends the left spine. -/
theorem pathD_succ_inc (v : Nat) : ∀ i : Nat, 0 < v → 0 < i → i < (pathD v).length →
    ((pathD v).getD i 0 + 3) % 4 < 3 →
    (∀ k, i < k → k < (pathD v).length → ((pathD v).getD k 0 + 3) % 4 = 3) →
    pathD (v + 1) =
      (pathD v).take i ++ leftChain ((pathD v).getD i 0 + 1) ((pathD v).length - i) := by
  induction v using Nat.strong_induction_on with
  | _ v ih =>
    intro i hv hi hiL hdig h3
    have hvne : v ≠ 0 := by omega
    have hsplit : pathD v = pathD ((v - 1) / 4) ++ [v] := pathD_pos v hvne
    have hL : (pathD v).length = (pathD ((v - 1) / 4)).length + 1 := by
      rw [hsplit]; simp
    have hlast : (pathD v).getD ((pathD ((v - 1) / 4)).length) 0 = v := by
      have := pathD_last v
      rwa [show (pathD v).length - 1 = (pathD ((v - 1) / 4)).length by omega] at this
    rcases Nat.lt_or_ge i (pathD ((v - 1) / 4)).length with hilt | hieq
    · -- the last digit of v is 3: carry into the parent
      have hd3 : (v + 3) % 4 = 3 := by
        have h := h3 (pathD ((v - 1) / 4)).length (by omega) (by omega)
        rwa [hlast] at h
      have hpar : (v + 1 - 1) / 4 = (v - 1) / 4 + 1 := by omega
      have hsucc : pathD (v + 1) = pathD ((v - 1) / 4 + 1) ++ [v + 1] := by
        rw [pathD_pos (v + 1) (by omega), hpar]
      have hagree : ∀ k, k < (pathD ((v - 1) / 4)).length →
          (pathD v).getD k 0 = (pathD ((v - 1) / 4)).getD k 0 := by
        intro k hk
        rw [hsplit, List.getD_append _ _ _ _ hk]
      have hu0 : (v - 1) / 4 ≠ 0 := pathD_length_two _ (by omega)
      have ihu := ih ((v - 1) / 4) (by omega) i (by omega) hi hilt
        (by rw [← hagree i hilt]; exact hdig)
        (by intro k hk1 hk2
            rw [← hagree k hk2]
            exact h3 k hk1 (by omega))
      have hlen_take : (((pathD ((v - 1) / 4)).take i)).length = i := by
        rw [List.length_take]; omega
      have hlenU : (pathD ((v - 1) / 4 + 1)).length = (pathD ((v - 1) / 4)).length := by
        rw [ihu]
        simp only [List.length_append, leftChain_length, List.length_take]
        omega
      have hlastU : (pathD ((v - 1) / 4 + 1)).getD ((pathD ((v - 1) / 4)).length - 1) 0 =
          (v - 1) / 4 + 1 := by
        have h := pathD_last ((v - 1) / 4 + 1)
        rwa [hlenU] at h
      have hlastU2 : (pathD ((v - 1) / 4 + 1)).getD ((pathD ((v - 1) / 4)).length - 1) 0 =
          leftN ((pathD ((v - 1) / 4)).getD i 0 + 1) ((pathD ((v - 1) / 4)).length - 1 - i) := by
        rw [ihu, List.getD_append_right _ _ _ _ (by rw [hlen_take]; omega), hlen_take,
          leftChain_getD _ _ _ (by omega)]
      have hwval : leftN ((pathD ((v - 1) / 4)).getD i 0 + 1)
          ((pathD ((v - 1) / 4)).length - 1 - i) = (v - 1) / 4 + 1 := by
        rw [← hlastU2, hlastU]
      rw [hsucc, ihu, hsplit, List.take_append_of_le_length (by omega),
        List.getD_append _ _ _ _ hilt,
        show (pathD ((v - 1) / 4) ++ [v]).length = (pathD ((v - 1) / 4)).length + 1 from by simp,
        show (pathD ((v - 1) / 4)).length + 1 - i = ((pathD ((v - 1) / 4)).length - i) + 1
          from by omega,
        leftChain_snoc,
        show leftN ((pathD ((v - 1) / 4)).getD i 0 + 1) ((pathD ((v - 1) / 4)).length - i) = v + 1
          from by
            rw [show (pathD ((v - 1) / 4)).length - i =
              ((pathD ((v - 1) / 4)).length - 1 - i) + 1 from by omega]
            show 4 * leftN ((pathD ((v - 1) / 4)).getD i 0 + 1)
              ((pathD ((v - 1) / 4)).length - 1 - i) + 1 = v + 1
            rw [hwval]
            omega,
        List.append_assoc]
    · -- i is the last position: v itself is incremented in place
      have hieq' : i = (pathD ((v - 1) / 4)).length := by omega
      have hdig' : (v + 3) % 4 < 3 := by
        rw [hieq', hlast] at hdig
        exact hdig
      have hpar : (v + 1 - 1) / 4 = (v - 1) / 4 := by omega
      have hsucc : pathD (v + 1) = pathD ((v - 1) / 4) ++ [v + 1] := by
        rw [pathD_pos (v + 1) (by omega), hpar]
      rw [hsucc, hieq', hlast, show (pathD v).length - (pathD ((v - 1) / 4)).length = 1
        from by omega, hsplit, List.take_append_of_le_length (by omega), List.take_length]
      rfl

/-- Incrementing a node number all of whose digits are 3 (the rightmost
node at its depth): the new path is the full left spine one level
deeper. -/
theorem pathD_succ_wrap (v : Nat) : 0 < v →
    (∀ k, 0 < k → k < (pathD v).length → ((pathD v).getD k 0 + 3) % 4 = 3) →
    pathD (v + 1) = 0 :: leftChain 1 (pathD v).length := by
  induction v using Nat.strong_induction_on with
  | _ v ih =>
    intro hv h3
    have hvne : v ≠ 0 := by omega
    have hsplit : pathD v = pathD ((v - 1) / 4) ++ [v] := pathD_pos v hvne
    have hL : (pathD v).length = (pathD ((v - 1) / 4)).length + 1 := by
      rw [hsplit]; simp
    have hlast : (pathD v).getD ((pathD ((v - 1) / 4)).length) 0 = v := by
      have := pathD_last v
      rwa [show (pathD v).length - 1 = (pathD ((v - 1) / 4)).length by omega] at this
    have hLu : 0 < (pathD ((v - 1) / 4)).length := pathD_length_pos _
    have hd3 : (v + 3) % 4 = 3 := by
      have h := h3 (pathD ((v - 1) / 4)).length (by omega) (by omega)
      rwa [hlast] at h
    by_cases hu0 : (v - 1) / 4 = 0
    · have hv4 : v = 4 := by omega
      subst hv4
      have h5 : pathD 5 = pathD 1 ++ [5] := by
        have := pathD_pos 5 (by omega)
        norm_num at this
        exact this
      have h1 : pathD 1 = pathD 0 ++ [1] := by
        have := pathD_pos 1 (by omega)
        norm_num at this
        exact this
      have h4 : pathD 4 = pathD 0 ++ [4] := by
        have := pathD_pos 4 (by omega)
        norm_num at this
        exact this
      rw [show (4 : Nat) + 1 = 5 from rfl, h5, h1, h4, pathD_zero]
      rfl
    · have hpar : (v + 1 - 1) / 4 = (v - 1) / 4 + 1 := by omega
      have hsucc : pathD (v + 1) = pathD ((v - 1) / 4 + 1) ++ [v + 1] := by
        rw [pathD_pos (v + 1) (by omega), hpar]
      have hagree : ∀ k, k < (pathD ((v - 1) / 4)).length →
          (pathD v).getD k 0 = (pathD ((v - 1) / 4)).getD k 0 := by
        intro k hk
        rw [hsplit, List.getD_append _ _ _ _ hk]
      have ihu := ih ((v - 1) / 4) (by omega) (by omega)
        (by intro k hk1 hk2
            rw [← hagree k hk2]
            exact h3 k hk1 (by omega))
      have hlenU : (pathD ((v - 1) / 4 + 1)).length = (pathD ((v - 1) / 4)).length + 1 := by
        rw [ihu]
        simp [leftChain_length]
      have hLu2 : 2 ≤ (pathD ((v - 1) / 4)).length := by
        rcases Nat.lt_or_ge (pathD ((v - 1) / 4)).length 2 with h | h
        · exfalso
          have h1 : (pathD ((v - 1) / 4)).length = 1 := by omega
          have h2 := pathD_last ((v - 1) / 4)
          rw [h1] at h2
          simp only [Nat.sub_self] at h2
          rw [pathD_getD_zero] at h2
          omega
        · exact h
      have hlastU : (pathD ((v - 1) / 4 + 1)).getD ((pathD ((v - 1) / 4)).length) 0 =
          (v - 1) / 4 + 1 := by
        have h := pathD_last ((v - 1) / 4 + 1)
        rwa [hlenU, Nat.add_sub_cancel] at h
      have hlastU2 : (pathD ((v - 1) / 4 + 1)).getD ((pathD ((v - 1) / 4)).length) 0 =
          leftN 1 ((pathD ((v - 1) / 4)).length - 1) := by
        rw [ihu]
        have hx : (pathD ((v - 1) / 4)).length = 0 + 1 + ((pathD ((v - 1) / 4)).length - 1) := by
          omega
        show (0 :: leftChain 1 (pathD ((v - 1) / 4)).length).getD
          ((pathD ((v - 1) / 4)).length) 0 = _
        rw [show (0 :: leftChain 1 (pathD ((v - 1) / 4)).length) =
          [0] ++ leftChain 1 (pathD ((v - 1) / 4)).length from rfl,
          List.getD_append_right _ _ _ _ (by simp; omega)]
        simp only [List.length_cons, List.length_nil]
        rw [leftChain_getD _ _ _ (by omega)]
      have hwval : leftN 1 ((pathD ((v - 1) / 4)).length - 1) = (v - 1) / 4 + 1 := by
        rw [← hlastU2, hlastU]
      rw [hsucc, ihu, hL,
        show leftChain 1 ((pathD ((v - 1) / 4)).length + 1) =
          leftChain 1 (pathD ((v - 1) / 4)).length ++
            [leftN 1 (pathD ((v - 1) / 4)).length] from leftChain_snoc _ _,
        show leftN 1 (pathD ((v - 1) / 4)).length = v + 1 from by
          rw [show (pathD ((v - 1) / 4)).length =
            ((pathD ((v - 1) / 4)).length - 1) + 1 from by omega]
          show 4 * leftN 1 ((pathD ((v - 1) / 4)).length - 1) + 1 = v + 1
          rw [hwval]
          omega]
      rfl

theorem resetLoop_spec (prf : γ → Addr → V → V) (ctx : γ) (seed : V) (addr0 : Addr)
    (Q : List Nat) :
    ∀ (fuel j : Nat) (st : prf_iter γ V) (tr : List Nat),
      st.num_node - j ≤ fuel →
      st.num_node = Q.length →
      1 ≤ j →
      st.ctx = ctx →
      (∀ w, set_prf_index st.addr w = set_prf_index addr0 w) →
      (∀ k, k < j → st.node k = Q.getD k 0) →
      (∀ k, k < j → st.node_value k = evalNode prf ctx seed addr0 (Q.getD k 0)) →
      (∀ k, 0 < k → k < j → st.count k = (Q.getD k 0 + 3) % 4) →
      (∀ k, j ≤ k → k < Q.length → Q.getD k 0 = 4 * Q.getD (k - 1) 0 + 1) →
      (resetLoop prf j st tr).1.num_node = st.num_node ∧
      (resetLoop prf j st tr).1.min_node = st.min_node ∧
      (resetLoop prf j st tr).1.stop_node = st.stop_node ∧
      (resetLoop prf j st tr).1.cur_node = st.cur_node ∧
      (resetLoop prf j st tr).1.ctx = ctx ∧
      (∀ w, set_prf_index (resetLoop prf j st tr).1.addr w = set_prf_index addr0 w) ∧
      (∀ k, k < Q.length → (resetLoop prf j st tr).1.node k = Q.getD k 0) ∧
      (∀ k, k < Q.length → (resetLoop prf j st tr).1.node_value k =
        evalNode prf ctx seed addr0 (Q.getD k 0)) ∧
      (∀ k, 0 < k → k < Q.length → (resetLoop prf j st tr).1.count k = (Q.getD k 0 + 3) % 4) ∧
      (resetLoop prf j st tr).1.count 0 = st.count 0 ∧
      (resetLoop prf j st tr).2 = tr ++ Q.drop j := by
  intro fuel
  induction fuel with
  | zero =>
    intro j st tr hfuel hnum hj hctx haddr hnode hval hcnt hchain
    have hstop : ¬ j < st.num_node := by omega
    rw [resetLoop, if_neg hstop]
    have hdrop : Q.drop j = [] := List.drop_eq_nil_of_le (by omega)
    refine ⟨rfl, rfl, rfl, rfl, hctx, haddr, ?_, ?_, ?_, rfl, by rw [hdrop, List.append_nil]⟩
    · intro k hk
      exact hnode k (by omega)
    · intro k hk
      exact hval k (by omega)
    · intro k hk0 hk
      exact hcnt k hk0 (by omega)
  | succ fuel ih =>
    intro j st tr hfuel hnum hj hctx haddr hnode hval hcnt hchain
    by_cases hlt : j < st.num_node
    · rw [resetLoop, if_pos hlt]
      have hjQ : j < Q.length := by omega
      have hndj : st.node (j - 1) = Q.getD (j - 1) 0 := hnode (j - 1) (by omega)
      have hQj : Q.getD j 0 = 4 * Q.getD (j - 1) 0 + 1 := hchain j (by omega) hjQ
      have hnd : 4 * st.node (j - 1) + 1 = Q.getD j 0 := by
        rw [hndj, hQj]
      have hvj : prf st.ctx (set_prf_index st.addr (4 * st.node (j - 1) + 1))
          (st.node_value (j - 1)) = evalNode prf ctx seed addr0 (Q.getD j 0) := by
        rw [hctx, haddr, hnd, hval (j - 1) (by omega),
          evalNode_pos prf ctx seed addr0 (Q.getD j 0) (by omega)]
        have hpar : (Q.getD j 0 - 1) / 4 = Q.getD (j - 1) 0 := by omega
        rw [hpar]
      have := ih (j + 1)
        { st with
          count := Function.update st.count j 0,
          node := Function.update st.node j (4 * st.node (j - 1) + 1),
          addr := set_prf_index st.addr (4 * st.node (j - 1) + 1),
          node_value := Function.update st.node_value j
            (prf st.ctx (set_prf_index st.addr (4 * st.node (j - 1) + 1))
              (st.node_value (j - 1))) }
        (tr ++ [4 * st.node (j - 1) + 1])
        (by show st.num_node - (j + 1) ≤ fuel; omega)
        (by show st.num_node = Q.length; exact hnum)
        (by omega)
        (by show st.ctx = ctx; exact hctx)
        (by intro w
            show set_prf_index (set_prf_index st.addr _) w = _
            rw [set_prf_index_twice, haddr])
        (by intro k hk
            show Function.update st.node j (4 * st.node (j - 1) + 1) k = Q.getD k 0
            rcases Nat.lt_or_ge k j with h | h
            · rw [Function.update_apply, if_neg (by omega)]
              exact hnode k h
            · have hkj : k = j := by omega
              subst hkj
              rw [Function.update_apply, if_pos rfl]
              exact hnd)
        (by intro k hk
            show Function.update st.node_value j _ k = _
            rcases Nat.lt_or_ge k j with h | h
            · rw [Function.update_apply, if_neg (by omega)]
              exact hval k h
            · have hkj : k = j := by omega
              subst hkj
              rw [Function.update_apply, if_pos rfl]
              exact hvj)
        (by intro k hk0 hk
            show Function.update st.count j 0 k = _
            rcases Nat.lt_or_ge k j with h | h
            · rw [Function.update_apply, if_neg (by omega)]
              exact hcnt k hk0 h
            · have hkj : k = j := by omega
              subst hkj
              rw [Function.update_apply, if_pos rfl]
              rw [hQj]
              omega)
        (by intro k hk1 hk2
            exact hchain k (by omega) hk2)
      obtain ⟨c1, c2, c3, c4, c5, c6, c7, c8, c9, c10, c11⟩ := this
      refine ⟨c1, c2, c3, c4, c5, c6, c7, c8, c9, ?_, ?_⟩
      · rw [c10]
        show Function.update st.count j 0 0 = st.count 0
        rw [Function.update_apply, if_neg (by omega)]
      · rw [c11, List.append_assoc]
        have hdropj : Q.drop j = Q.getD j 0 :: Q.drop (j + 1) := by
          rw [List.drop_eq_getElem_cons hjQ, List.getD_eq_getElem Q 0 hjQ]
        rw [hdropj, hnd]
        rfl
    · rw [resetLoop, if_neg hlt]
      have hdrop : Q.drop j = [] := List.drop_eq_nil_of_le (by omega)
      refine ⟨rfl, rfl, rfl, rfl, hctx, haddr, ?_, ?_, ?_, rfl, by rw [hdrop, List.append_nil]⟩
      · intro k hk
        exact hnode k (by omega)
      · intro k hk
        exact hval k (by omega)
      · intro k hk0 hk
        exact hcnt k hk0 (by omega)

/-- The iterator invariant: after `initialize_prf_iter` and any number
of `next_prf_iter` calls, the per-depth arrays hold exactly the
top-down path of the current node `v`, its child-index digits, and the
reference node values. -/
structure IterInv (prf : γ → Addr → V → V) (ctx : γ) (seed : V) (addr0 : Addr)
    (minN stopN v : Nat) (it : prf_iter γ V) : Prop where
  hmin : it.min_node = minN
  hstop : it.stop_node = (stopN : Int)
  hcur : it.cur_node = (v : Int)
  hctx : it.ctx = ctx
  hnum : it.num_node = (pathD v).length
  hnode : ∀ k, k < it.num_node → it.node k = (pathD v).getD k 0
  hcount0 : it.count 0 = 0
  hcount : ∀ k, 0 < k → k < it.num_node → it.count k = ((pathD v).getD k 0 + 3) % 4
  hval : ∀ k, k < it.num_node →
    it.node_value k = evalNode prf ctx seed addr0 ((pathD v).getD k 0)
  haddr : ∀ w, set_prf_index it.addr w = set_prf_index addr0 w
  hvmin : minN ≤ v
  hvpos : 0 < v

theorem iterInv_out (prf : γ → Addr → V → V) (ctx : γ) (seed : V) (addr0 : Addr)
    (minN stopN v : Nat) (it : prf_iter γ V)
    (inv : IterInv prf ctx seed addr0 minN stopN v it) :
    it.node_value (it.num_node - 1) = evalNode prf ctx seed addr0 v := by
  have h := inv.hval (it.num_node - 1) (by
    have h1 := pathD_length_pos v
    have h2 := inv.hnum
    omega)
  rw [h, inv.hnum, pathD_last]

/-- The `cur_node == stop_node` branch of `next_prf_iter`: it emits the
stop node's index and value, and — because of the function-level
`it->cur_node++` — leaves `cur_node` at −1+1 = 0, not at −1. -/
theorem next_prf_iter_stop (prf : γ → Addr → V → V) (ctx : γ) (seed : V) (addr0 : Addr)
    (minN stopN v : Nat) (it : prf_iter γ V)
    (inv : IterInv prf ctx seed addr0 minN stopN v it) (heq : v = stopN) :
    next_prf_iter prf it =
      (((v - minN : Nat) : Int), some (evalNode prf ctx seed addr0 v),
        { it with cur_node := -1 + 1 }, []) := by
  have hne : ¬ it.cur_node = -1 := by
    rw [inv.hcur]; omega
  have hstop : it.cur_node = it.stop_node := by
    rw [inv.hcur, inv.hstop, heq]
  simp only [next_prf_iter]
  rw [if_neg hne, if_pos hstop]
  have hret : it.cur_node - (it.min_node : Int) = ((v - minN : Nat) : Int) := by
    rw [inv.hcur, inv.hmin]
    have := inv.hvmin
    omega
  rw [hret, iterInv_out prf ctx seed addr0 minN stopN v it inv]

set_option maxHeartbeats 2000000 in
/-- The advancing branch of `next_prf_iter`: from a state at node `v`
(with `v` before the stop node), one call emits index `v - min_node`
and the value of node `v`, re-establishes the invariant at `v + 1`, and
its PRF-call trace is a suffix of the new path whose complementary
prefix is shared with the old path. -/
theorem next_prf_iter_step (prf : γ → Addr → V → V) (ctx : γ) (seed : V) (addr0 : Addr)
    (minN stopN v : Nat) (it : prf_iter γ V)
    (inv : IterInv prf ctx seed addr0 minN stopN v it) (hlt : v < stopN) :
    (next_prf_iter prf it).1 = ((v - minN : Nat) : Int) ∧
    (next_prf_iter prf it).2.1 = some (evalNode prf ctx seed addr0 v) ∧
    IterInv prf ctx seed addr0 minN stopN (v + 1) (next_prf_iter prf it).2.2.1 ∧
    (∃ m, 1 ≤ m ∧ m ≤ (pathD (v + 1)).length ∧
      (next_prf_iter prf it).2.2.2 = (pathD (v + 1)).drop m ∧
      (pathD (v + 1)).take m = (pathD v).take m) := by
  have hne : ¬ it.cur_node = -1 := by
    rw [inv.hcur]; omega
  have hnstop : ¬ it.cur_node = it.stop_node := by
    rw [inv.hcur, inv.hstop]
    intro h
    omega
  have hret : it.cur_node - (it.min_node : Int) = ((v - minN : Nat) : Int) := by
    rw [inv.hcur, inv.hmin]
    have := inv.hvmin
    omega
  have hL1 : 0 < (pathD v).length := pathD_length_pos v
  have hnum := inv.hnum
  have h0 : it.count 0 < 3 := by rw [inv.hcount0]; omega
  obtain ⟨hfd1, hfd2, hfd3⟩ := findDigit_spec it.count h0 it.num_node (by omega)
  set i := findDigit it.count it.num_node with hidef
  have hout : it.node_value (it.num_node - 1) = evalNode prf ctx seed addr0 v :=
    iterInv_out prf ctx seed addr0 minN stopN v it inv
  by_cases hipos : 0 < i
  · -- increment at digit i ≥ 1
    have hiL : i < (pathD v).length := by omega
    have hdig : ((pathD v).getD i 0 + 3) % 4 < 3 := by
      rw [← inv.hcount i hipos (by omega)]
      exact hfd2
    have h3 : ∀ k, i < k → k < (pathD v).length →
        ((pathD v).getD k 0 + 3) % 4 = 3 := by
      intro k hk1 hk2
      have h := hfd3 k hk1 (by omega)
      rw [inv.hcount k (by omega) (by omega)] at h
      omega
    have hQ := pathD_succ_inc v i inv.hvpos hipos hiL hdig h3
    have htakelen : ((pathD v).take i).length = i := by
      rw [List.length_take]; omega
    have hQlen : (pathD (v + 1)).length = (pathD v).length := by
      rw [hQ]
      simp only [List.length_append, leftChain_length, List.length_take]
      omega
    have hQpre : ∀ k, k < i → (pathD (v + 1)).getD k 0 = (pathD v).getD k 0 := by
      intro k hk
      rw [hQ, List.getD_append _ _ _ _ (by omega)]
      simp [List.getD_eq_getElem?_getD, List.getElem?_take, hk]
    have hQi : (pathD (v + 1)).getD i 0 = (pathD v).getD i 0 + 1 := by
      rw [hQ, List.getD_append_right _ _ _ _ (by omega), htakelen, Nat.sub_self,
        leftChain_getD _ _ _ (by omega)]
      rfl
    have hQmid : ∀ k, i ≤ k → k < (pathD v).length →
        (pathD (v + 1)).getD k 0 = leftN ((pathD v).getD i 0 + 1) (k - i) := by
      intro k hk1 hk2
      rw [hQ, List.getD_append_right _ _ _ _ (by omega), htakelen,
        leftChain_getD _ _ _ (by omega)]
    have hQchain : ∀ k, i + 1 ≤ k → k < (pathD (v + 1)).length →
        (pathD (v + 1)).getD k 0 = 4 * (pathD (v + 1)).getD (k - 1) 0 + 1 := by
      intro k hk1 hk2
      rw [hQlen] at hk2
      rw [hQmid k (by omega) hk2, hQmid (k - 1) (by omega) (by omega),
        show k - i = (k - 1 - i) + 1 from by omega]
      rfl
    have hch := pathD_chain v (i - 1) (by omega)
    rw [show i - 1 + 1 = i from by omega] at hch
    have hvi : prf it.ctx (set_prf_index it.addr (it.node i + 1)) (it.node_value (i - 1)) =
        evalNode prf ctx seed addr0 ((pathD (v + 1)).getD i 0) := by
      rw [inv.hctx, inv.haddr, inv.hnode i (by omega), inv.hval (i - 1) (by omega), hQi,
        evalNode_pos prf ctx seed addr0 ((pathD v).getD i 0 + 1) (by omega)]
      have hpar : ((pathD v).getD i 0 + 1 - 1) / 4 = (pathD v).getD (i - 1) 0 := by omega
      rw [hpar]
    obtain ⟨c1, c2, c3, c4, c5, c6, c7, c8, c9, c10, c11⟩ :=
      resetLoop_spec prf ctx seed addr0 (pathD (v + 1)) (pathD v).length (i + 1)
        { it with
          count := Function.update it.count i (it.count i + 1),
          node := Function.update it.node i (it.node i + 1),
          addr := set_prf_index it.addr (it.node i + 1),
          node_value := Function.update it.node_value i
            (prf it.ctx (set_prf_index it.addr (it.node i + 1)) (it.node_value (i - 1))) }
        [it.node i + 1]
        (by show it.num_node - (i + 1) ≤ (pathD v).length; omega)
        (by show it.num_node = (pathD (v + 1)).length; omega)
        (by omega)
        (by show it.ctx = ctx; exact inv.hctx)
        (by intro w
            show set_prf_index (set_prf_index it.addr _) w = _
            rw [set_prf_index_twice, inv.haddr])
        (by intro k hk
            show Function.update it.node i (it.node i + 1) k = _
            rcases Nat.lt_or_ge k i with h | h
            · rw [Function.update_apply, if_neg (by omega), inv.hnode k (by omega), hQpre k h]
            · have hki : k = i := by omega
              subst hki
              rw [Function.update_apply, if_pos rfl, inv.hnode i (by omega), hQi])
        (by intro k hk
            show Function.update it.node_value i _ k = _
            rcases Nat.lt_or_ge k i with h | h
            · rw [Function.update_apply, if_neg (by omega), inv.hval k (by omega), hQpre k h]
            · have hki : k = i := by omega
              subst hki
              rw [Function.update_apply, if_pos rfl, hvi])
        (by intro k hk0 hk
            show Function.update it.count i (it.count i + 1) k = _
            rcases Nat.lt_or_ge k i with h | h
            · rw [Function.update_apply, if_neg (by omega), inv.hcount k hk0 (by omega),
                hQpre k h]
            · have hki : k = i := by omega
              subst hki
              rw [Function.update_apply, if_pos rfl, inv.hcount i hk0 (by omega), hQi]
              omega)
        hQchain
    have hrun : next_prf_iter prf it =
        (it.cur_node - (it.min_node : Int), some (it.node_value (it.num_node - 1)),
         { (resetLoop prf (i + 1)
             { it with
               count := Function.update it.count i (it.count i + 1),
               node := Function.update it.node i (it.node i + 1),
               addr := set_prf_index it.addr (it.node i + 1),
               node_value := Function.update it.node_value i
                 (prf it.ctx (set_prf_index it.addr (it.node i + 1))
                   (it.node_value (i - 1))) }
             [it.node i + 1]).1 with
           cur_node := (resetLoop prf (i + 1)
             { it with
               count := Function.update it.count i (it.count i + 1),
               node := Function.update it.node i (it.node i + 1),
               addr := set_prf_index it.addr (it.node i + 1),
               node_value := Function.update it.node_value i
                 (prf it.ctx (set_prf_index it.addr (it.node i + 1))
                   (it.node_value (i - 1))) }
             [it.node i + 1]).1.cur_node + 1 },
         (resetLoop prf (i + 1)
           { it with
             count := Function.update it.count i (it.count i + 1),
             node := Function.update it.node i (it.node i + 1),
             addr := set_prf_index it.addr (it.node i + 1),
             node_value := Function.update it.node_value i
               (prf it.ctx (set_prf_index it.addr (it.node i + 1))
                 (it.node_value (i - 1))) }
           [it.node i + 1]).2) := by
      simp only [next_prf_iter]
      rw [if_neg hne, if_neg hnstop, ← hidef, if_pos hipos]
    rw [hrun]
    refine ⟨hret, by rw [hout], ?_, ?_⟩
    · constructor
      · show (resetLoop _ _ _ _).1.min_node = minN
        rw [c2]
        exact inv.hmin
      · show (resetLoop _ _ _ _).1.stop_node = _
        rw [c3]
        exact inv.hstop
      · show (resetLoop _ _ _ _).1.cur_node + 1 = _
        rw [c4]
        show it.cur_node + 1 = _
        rw [inv.hcur]
        omega
      · exact c5
      · show (resetLoop _ _ _ _).1.num_node = _
        rw [c1]
        show it.num_node = _
        omega
      · intro k hk
        have hk' : k < (pathD (v + 1)).length := by
          have := c1
          revert hk
          show k < (resetLoop _ _ _ _).1.num_node → _
          rw [c1]
          show k < it.num_node → _
          omega
        exact c7 k hk'
      · rw [c10]
        show Function.update it.count i (it.count i + 1) 0 = 0
        rw [Function.update_apply, if_neg (by omega)]
        exact inv.hcount0
      · intro k hk0 hk
        have hk' : k < (pathD (v + 1)).length := by
          revert hk
          show k < (resetLoop _ _ _ _).1.num_node → _
          rw [c1]
          show k < it.num_node → _
          omega
        exact c9 k hk0 hk'
      · intro k hk
        have hk' : k < (pathD (v + 1)).length := by
          revert hk
          show k < (resetLoop _ _ _ _).1.num_node → _
          rw [c1]
          show k < it.num_node → _
          omega
        exact c8 k hk'
      · exact c6
      · have := inv.hvmin
        omega
      · omega
    · refine ⟨i, by omega, by omega, ?_, ?_⟩
      · rw [c11]
        have hdropi : (pathD (v + 1)).drop i =
            (pathD (v + 1)).getD i 0 :: (pathD (v + 1)).drop (i + 1) := by
          rw [List.drop_eq_getElem_cons (by omega)]
          congr 1
          exact (List.getD_eq_getElem _ 0 (by omega)).symm
        rw [hdropi, hQi, inv.hnode i (by omega)]
        rfl
      · rw [hQ, List.take_append_of_le_length (by omega), List.take_take, Nat.min_self]
  · -- wrap: all digits are 3, depth grows by one
    have hi0 : i = 0 := by omega
    have h3all : ∀ k, 0 < k → k < (pathD v).length →
        ((pathD v).getD k 0 + 3) % 4 = 3 := by
      intro k hk1 hk2
      have h := hfd3 k (by omega) (by omega)
      rw [inv.hcount k hk1 (by omega)] at h
      omega
    have hQ := pathD_succ_wrap v inv.hvpos h3all
    have hQlen : (pathD (v + 1)).length = (pathD v).length + 1 := by
      rw [hQ]
      simp [leftChain_length]
    have hQ0 : (pathD (v + 1)).getD 0 0 = 0 := pathD_getD_zero (v + 1)
    have hQk : ∀ k, 1 ≤ k → k < (pathD v).length + 1 →
        (pathD (v + 1)).getD k 0 = leftN 1 (k - 1) := by
      intro k hk1 hk2
      rw [hQ, show k = (k - 1) + 1 from by omega, List.getD_cons_succ,
        leftChain_getD _ _ _ (by omega)]
      congr 1
    have hQchain : ∀ k, 1 ≤ k → k < (pathD (v + 1)).length →
        (pathD (v + 1)).getD k 0 = 4 * (pathD (v + 1)).getD (k - 1) 0 + 1 := by
      intro k hk1 hk2
      rw [hQlen] at hk2
      rcases Nat.lt_or_ge k 2 with h | h
      · have hk1' : k = 1 := by omega
        subst hk1'
        rw [hQk 1 (by omega) (by omega), hQ0]
        rfl
      · rw [hQk k (by omega) hk2, hQk (k - 1) (by omega) (by omega),
          show k - 1 = (k - 1 - 1) + 1 from by omega]
        rfl
    obtain ⟨c1, c2, c3, c4, c5, c6, c7, c8, c9, c10, c11⟩ :=
      resetLoop_spec prf ctx seed addr0 (pathD (v + 1)) ((pathD v).length + 1) 1
        { it with num_node := it.num_node + 1 } []
        (by show it.num_node + 1 - 1 ≤ (pathD v).length + 1; omega)
        (by show it.num_node + 1 = (pathD (v + 1)).length; omega)
        (by omega)
        (by show it.ctx = ctx; exact inv.hctx)
        (by intro w; exact inv.haddr w)
        (by intro k hk
            have hk0 : k = 0 := by omega
            subst hk0
            show it.node 0 = _
            rw [inv.hnode 0 (by omega), pathD_getD_zero, hQ0])
        (by intro k hk
            have hk0 : k = 0 := by omega
            subst hk0
            show it.node_value 0 = _
            rw [inv.hval 0 (by omega), pathD_getD_zero, hQ0])
        (by intro k hk0 hk; omega)
        hQchain
    have hrun : next_prf_iter prf it =
        (it.cur_node - (it.min_node : Int), some (it.node_value (it.num_node - 1)),
         { (resetLoop prf 1 { it with num_node := it.num_node + 1 } []).1 with
           cur_node :=
             (resetLoop prf 1 { it with num_node := it.num_node + 1 } []).1.cur_node + 1 },
         (resetLoop prf 1 { it with num_node := it.num_node + 1 } []).2) := by
      simp only [next_prf_iter]
      rw [if_neg hne, if_neg hnstop, ← hidef, if_neg hipos, hi0]
    rw [hrun]
    refine ⟨hret, by rw [hout], ?_, ?_⟩
    · constructor
      · show (resetLoop _ _ _ _).1.min_node = minN
        rw [c2]
        exact inv.hmin
      · show (resetLoop _ _ _ _).1.stop_node = _
        rw [c3]
        exact inv.hstop
      · show (resetLoop _ _ _ _).1.cur_node + 1 = _
        rw [c4]
        show it.cur_node + 1 = _
        rw [inv.hcur]
        omega
      · exact c5
      · show (resetLoop _ _ _ _).1.num_node = _
        rw [c1]
        show it.num_node + 1 = _
        omega
      · intro k hk
        have hk' : k < (pathD (v + 1)).length := by
          revert hk
          show k < (resetLoop _ _ _ _).1.num_node → _
          rw [c1]
          show k < it.num_node + 1 → _
          omega
        exact c7 k hk'
      · rw [c10]
        exact inv.hcount0
      · intro k hk0 hk
        have hk' : k < (pathD (v + 1)).length := by
          revert hk
          show k < (resetLoop _ _ _ _).1.num_node → _
          rw [c1]
          show k < it.num_node + 1 → _
          omega
        exact c9 k hk0 hk'
      · intro k hk
        have hk' : k < (pathD (v + 1)).length := by
          revert hk
          show k < (resetLoop _ _ _ _).1.num_node → _
          rw [c1]
          show k < it.num_node + 1 → _
          omega
        exact c8 k hk'
      · exact c6
      · have := inv.hvmin
        omega
      · omega
    · refine ⟨1, by omega, by omega, ?_, ?_⟩
      · rw [c11]
        rfl
      · rw [hQ]
        show [0] = (pathD v).take 1
        rw [show pathD v = 0 :: (pathToRoot v).reverse from rfl]
        rfl

theorem initFill_spec (prf : γ → Addr → V → V) (ctx : γ) (seed : V) (addr0 : Addr)
    (Q : List Nat)
    (hchain : ∀ k, 0 < k → k < Q.length →
      0 < Q.getD k 0 ∧ (Q.getD k 0 - 1) / 4 = Q.getD (k - 1) 0) :
    ∀ (L : List Nat) (j : Nat) (st : prf_iter γ V) (tr : List Nat),
      Q.drop j = L →
      st.num_node = Q.length →
      1 ≤ j →
      st.ctx = ctx →
      (∀ w, set_prf_index st.addr w = set_prf_index addr0 w) →
      (∀ k, k < j → st.node k = Q.getD k 0) →
      (∀ k, k < j → st.node_value k = evalNode prf ctx seed addr0 (Q.getD k 0)) →
      (∀ k, 0 < k → k < j → st.count k = (Q.getD k 0 + 3) % 4) →
      (initFill prf L j st tr).1.num_node = st.num_node ∧
      (initFill prf L j st tr).1.min_node = st.min_node ∧
      (initFill prf L j st tr).1.stop_node = st.stop_node ∧
      (initFill prf L j st tr).1.cur_node = st.cur_node ∧
      (initFill prf L j st tr).1.ctx = ctx ∧
      (∀ w, set_prf_index (initFill prf L j st tr).1.addr w = set_prf_index addr0 w) ∧
      (∀ k, k < Q.length → (initFill prf L j st tr).1.node k = Q.getD k 0) ∧
      (∀ k, k < Q.length → (initFill prf L j st tr).1.node_value k =
        evalNode prf ctx seed addr0 (Q.getD k 0)) ∧
      (∀ k, 0 < k → k < Q.length →
        (initFill prf L j st tr).1.count k = (Q.getD k 0 + 3) % 4) ∧
      (initFill prf L j st tr).1.count 0 = st.count 0 ∧
      (initFill prf L j st tr).2 = tr ++ Q.drop j := by
  intro L
  induction L with
  | nil =>
    intro j st tr hL hnum hj hctx haddr hnode hval hcnt
    have hlen : Q.length ≤ j := by
      by_contra hc
      push_neg at hc
      rw [List.drop_eq_getElem_cons hc] at hL
      simp at hL
      omega
    refine ⟨rfl, rfl, rfl, rfl, hctx, haddr, ?_, ?_, ?_, rfl, ?_⟩
    · intro k hk
      exact hnode k (by omega)
    · intro k hk
      exact hval k (by omega)
    · intro k hk0 hk
      exact hcnt k hk0 (by omega)
    · show tr = tr ++ Q.drop j
      rw [hL, List.append_nil]
  | cons v rest ih =>
    intro j st tr hL hnum hj hctx haddr hnode hval hcnt
    have hjQ : j < Q.length := by
      by_contra hc
      rw [List.drop_eq_nil_of_le (by omega)] at hL
      simp at hL
    have hcons : Q.drop j = Q.getD j 0 :: Q.drop (j + 1) := by
      rw [List.drop_eq_getElem_cons hjQ, List.getD_eq_getElem Q 0 hjQ]
    rw [hcons] at hL
    injection hL with hv' hrest'
    have hv : v = Q.getD j 0 := hv'.symm
    have hQjpos : 0 < Q.getD j 0 := (hchain j (by omega) hjQ).1
    have hQjpar : (Q.getD j 0 - 1) / 4 = Q.getD (j - 1) 0 := (hchain j (by omega) hjQ).2
    simp only [initFill]
    have := ih (j + 1)
      { st with
        node := Function.update st.node j v,
        count := Function.update st.count j ((v + 3) % 4),
        addr := set_prf_index st.addr v,
        node_value := Function.update st.node_value j
          (prf st.ctx (set_prf_index st.addr v) (st.node_value (j - 1))) }
      (tr ++ [v])
      hrest'
      (by show st.num_node = Q.length; exact hnum)
      (by omega)
      (by show st.ctx = ctx; exact hctx)
      (by intro w
          show set_prf_index (set_prf_index st.addr v) w = _
          rw [set_prf_index_twice, haddr])
      (by intro k hk
          show Function.update st.node j v k = Q.getD k 0
          rcases Nat.lt_or_ge k j with h | h
          · rw [Function.update_apply, if_neg (by omega)]
            exact hnode k h
          · have hkj : k = j := by omega
            subst hkj
            rw [Function.update_apply, if_pos rfl]
            exact hv)
      (by intro k hk
          show Function.update st.node_value j _ k = _
          rcases Nat.lt_or_ge k j with h | h
          · rw [Function.update_apply, if_neg (by omega)]
            exact hval k h
          · have hkj : k = j := by omega
            rw [hkj, Function.update_apply, if_pos rfl, hctx, haddr, hv,
              hval (j - 1) (by omega),
              evalNode_pos prf ctx seed addr0 (Q.getD j 0) (by omega), hQjpar])
      (by intro k hk0 hk
          show Function.update st.count j ((v + 3) % 4) k = _
          rcases Nat.lt_or_ge k j with h | h
          · rw [Function.update_apply, if_neg (by omega)]
            exact hcnt k hk0 h
          · have hkj : k = j := by omega
            subst hkj
            rw [Function.update_apply, if_pos rfl, hv])
    obtain ⟨c1, c2, c3, c4, c5, c6, c7, c8, c9, c10, c11⟩ := this
    refine ⟨c1, c2, c3, c4, c5, c6, c7, c8, c9, ?_, ?_⟩
    · rw [c10]
      show Function.update st.count j ((v + 3) % 4) 0 = st.count 0
      rw [Function.update_apply, if_neg (by omega)]
    · rw [c11, List.append_assoc, hcons, hv]
      rfl

/-- `initialize_prf_iter` establishes the iterator invariant at the first
leaf `min_node = (n+1)/3`, and its PRF-call trace consists exactly of the
nodes on the path from the root (exclusive) down to that leaf. -/
theorem initialize_prf_iter_spec (prf : γ → Addr → V → V) (ctx : γ) (seed : V)
    (addr0 : Addr) (n stop : Nat) (hmin : 0 < (n + 1) / 3) :
    IterInv prf ctx seed addr0 ((n + 1) / 3) (stop + (n + 1) / 3) ((n + 1) / 3)
      (initialize_prf_iter prf n stop seed ctx addr0).1 ∧
    ∀ x, x ∈ (initialize_prf_iter prf n stop seed ctx addr0).2 ↔
      x ∈ pathToRoot ((n + 1) / 3) := by
  have hchain : ∀ k, 0 < k → k < (pathD ((n + 1) / 3)).length →
      0 < (pathD ((n + 1) / 3)).getD k 0 ∧
      ((pathD ((n + 1) / 3)).getD k 0 - 1) / 4 = (pathD ((n + 1) / 3)).getD (k - 1) 0 := by
    intro k hk0 hk
    have h := pathD_chain ((n + 1) / 3) (k - 1) (by omega)
    rw [show k - 1 + 1 = k from by omega] at h
    exact ⟨h.1, h.2⟩
  have hlenD : (pathD ((n + 1) / 3)).length = (pathToRoot ((n + 1) / 3)).length + 1 := by
    simp [pathD]
  simp only [initialize_prf_iter]
  obtain ⟨c1, c2, c3, c4, c5, c6, c7, c8, c9, c10, c11⟩ :=
    initFill_spec prf ctx seed addr0 (pathD ((n + 1) / 3)) hchain
      (pathToRoot ((n + 1) / 3)).reverse 1
      { num_node := (pathToRoot ((n + 1) / 3)).length + 1
        min_node := (n + 1) / 3
        stop_node := (stop : Int) + (((n + 1) / 3 : Nat) : Int)
        cur_node := (((n + 1) / 3 : Nat) : Int)
        node := fun _ => 0
        count := fun _ => 0
        ctx := ctx
        addr := addr0
        node_value := fun _ => seed } []
      rfl
      (by show (pathToRoot ((n + 1) / 3)).length + 1 = (pathD ((n + 1) / 3)).length
          omega)
      (le_refl 1)
      rfl
      (fun w => rfl)
      (by intro k hk
          have hk0 : k = 0 := by omega
          subst hk0
          show 0 = (pathD ((n + 1) / 3)).getD 0 0
          rw [pathD_getD_zero])
      (by intro k hk
          have hk0 : k = 0 := by omega
          subst hk0
          show seed = evalNode prf ctx seed addr0 ((pathD ((n + 1) / 3)).getD 0 0)
          rw [pathD_getD_zero, evalNode_zero])
      (by intro k hk0 hk
          omega)
  refine ⟨⟨?_, ?_, ?_, c5, ?_, ?_, ?_, ?_, ?_, c6, le_refl _, hmin⟩, ?_⟩
  · rw [c2]
  · rw [c3]
    show (stop : Int) + (((n + 1) / 3 : Nat) : Int) = ((stop + (n + 1) / 3 : Nat) : Int)
    omega
  · rw [c4]
  · rw [c1]
    show (pathToRoot ((n + 1) / 3)).length + 1 = (pathD ((n + 1) / 3)).length
    omega
  · intro k hk
    refine c7 k ?_
    revert hk
    show k < (initFill _ _ _ _ _).1.num_node → _
    rw [c1]
    show k < (pathToRoot ((n + 1) / 3)).length + 1 → _
    omega
  · rw [c10]
  · intro k hk0 hk
    refine c9 k hk0 ?_
    revert hk
    show k < (initFill _ _ _ _ _).1.num_node → _
    rw [c1]
    show k < (pathToRoot ((n + 1) / 3)).length + 1 → _
    omega
  · intro k hk
    refine c8 k ?_
    revert hk
    show k < (initFill _ _ _ _ _).1.num_node → _
    rw [c1]
    show k < (pathToRoot ((n + 1) / 3)).length + 1 → _
    omega
  · intro x
    rw [c11]
    show x ∈ [] ++ (pathToRoot ((n + 1) / 3)).reverse ↔ _
    simp [List.mem_reverse]

/-- `j`-fold application of `next_prf_iter` (the successive calls made by a
caller of the iterator), accumulating the instrumentation traces of all
calls. -/
def iterRun (prf : γ → Addr → V → V) (it : prf_iter γ V) : Nat → prf_iter γ V × List Nat
  | 0 => (it, [])
  | j + 1 =>
    ((next_prf_iter prf (iterRun prf it j).1).2.2.1,
     (iterRun prf it j).2 ++ (next_prf_iter prf (iterRun prf it j).1).2.2.2)

theorem mem_pathToRoot_of_mem_drop (w m x : Nat) (hm : 1 ≤ m)
    (hx : x ∈ (pathD w).drop m) : x ∈ pathToRoot w := by
  obtain ⟨k, rfl⟩ : ∃ k, m = k + 1 := ⟨m - 1, by omega⟩
  rw [show pathD w = 0 :: (pathToRoot w).reverse from rfl, List.drop_succ_cons] at hx
  exact List.mem_reverse.mp (List.mem_of_mem_drop hx)

theorem mem_step_trace_cases (v m x : Nat)
    (htake : (pathD (v + 1)).take m = (pathD v).take m)
    (hx : x ∈ pathToRoot (v + 1)) :
    x ∈ (pathD (v + 1)).drop m ∨ x ∈ pathToRoot v := by
  have hx0 : 0 < x := pathToRoot_mem_pos (v + 1) x hx
  have hxD : x ∈ pathD (v + 1) := (mem_pathD (v + 1) x).mpr (Or.inr hx)
  rw [← List.take_append_drop m (pathD (v + 1))] at hxD
  rcases List.mem_append.mp hxD with h | h
  · right
    rw [htake] at h
    rcases (mem_pathD v x).mp (List.mem_of_mem_take h) with h0 | h'
    · omega
    · exact h'
  · left
    exact h

/-- Master invariant of the iterator run: after `initialize_prf_iter` and
`j ≤ stop` calls of `next_prf_iter` the iterator satisfies the invariant at
node `min_node + j`, and the cumulative PRF-call trace (initialisation
included) contains exactly the nodes lying on a root path of one of the
nodes `min_node .. min_node + j`. -/
theorem iterRun_inv (prf : γ → Addr → V → V) (ctx : γ) (seed : V) (addr0 : Addr)
    (n stop : Nat) (hn : 1 < n) (hstop : stop < n) :
    ∀ j, j ≤ stop →
      IterInv prf ctx seed addr0 ((n + 1) / 3) (stop + (n + 1) / 3) ((n + 1) / 3 + j)
        (iterRun prf (initialize_prf_iter prf n stop seed ctx addr0).1 j).1 ∧
      ∀ x, (x ∈ (initialize_prf_iter prf n stop seed ctx addr0).2 ++
          (iterRun prf (initialize_prf_iter prf n stop seed ctx addr0).1 j).2) ↔
        ∃ u, (n + 1) / 3 ≤ u ∧ u ≤ (n + 1) / 3 + j ∧ x ∈ pathToRoot u := by
  have hmin : 0 < (n + 1) / 3 := by omega
  obtain ⟨inv0, htr0⟩ := initialize_prf_iter_spec prf ctx seed addr0 n stop hmin
  intro j
  induction j with
  | zero =>
    intro _
    constructor
    · show IterInv prf ctx seed addr0 ((n + 1) / 3) (stop + (n + 1) / 3) ((n + 1) / 3 + 0)
        (initialize_prf_iter prf n stop seed ctx addr0).1
      exact inv0
    · intro x
      rw [show (iterRun prf (initialize_prf_iter prf n stop seed ctx addr0).1 0).2 =
          ([] : List Nat) from rfl, List.append_nil, htr0 x]
      constructor
      · intro h
        exact ⟨(n + 1) / 3, le_refl _, by omega, h⟩
      · rintro ⟨u, h1, h2, h3⟩
        have hu : u = (n + 1) / 3 := by omega
        rw [hu] at h3
        exact h3
  | succ j ih =>
    intro hj
    obtain ⟨inv, htr⟩ := ih (by omega)
    obtain ⟨h1, h2, inv', m, hm1, hm2, htrEq, htake⟩ :=
      next_prf_iter_step prf ctx seed addr0 ((n + 1) / 3) (stop + (n + 1) / 3)
        ((n + 1) / 3 + j) _ inv (by omega)
    refine ⟨inv', ?_⟩
    intro x
    constructor
    · intro hx
      rw [show (iterRun prf (initialize_prf_iter prf n stop seed ctx addr0).1 (j + 1)).2 =
          (iterRun prf (initialize_prf_iter prf n stop seed ctx addr0).1 j).2 ++
          (next_prf_iter prf
            (iterRun prf (initialize_prf_iter prf n stop seed ctx addr0).1 j).1).2.2.2
        from rfl, ← List.append_assoc] at hx
      rcases List.mem_append.mp hx with h | h
      · obtain ⟨u, hu1, hu2, hu3⟩ := (htr x).mp h
        exact ⟨u, hu1, by omega, hu3⟩
      · rw [htrEq] at h
        exact ⟨(n + 1) / 3 + j + 1, by omega, by omega,
          mem_pathToRoot_of_mem_drop _ m x hm1 h⟩
    · rintro ⟨u, hu1, hu2, hu3⟩
      rw [show (iterRun prf (initialize_prf_iter prf n stop seed ctx addr0).1 (j + 1)).2 =
          (iterRun prf (initialize_prf_iter prf n stop seed ctx addr0).1 j).2 ++
          (next_prf_iter prf
            (iterRun prf (initialize_prf_iter prf n stop seed ctx addr0).1 j).1).2.2.2
        from rfl, ← List.append_assoc]
      rcases Nat.lt_or_ge u ((n + 1) / 3 + j + 1) with h | h
      · exact List.mem_append_left _ ((htr x).mpr ⟨u, hu1, by omega, hu3⟩)
      · have hu : u = (n + 1) / 3 + j + 1 := by omega
        rw [hu] at hu3
        rcases mem_step_trace_cases ((n + 1) / 3 + j) m x htake hu3 with h' | h'
        · refine List.mem_append_right _ ?_
          rw [htrEq]
          exact h'
        · exact List.mem_append_left _ ((htr x).mpr ⟨(n + 1) / 3 + j, by omega, by omega, h'⟩)

/-- After the final emitting call (call number stop, the stop branch),
the iterator is parked at cur_node = 0 — not −1 — and the next call again
returns a leaf index (0 − min_node) and writes the stop node's value into
the caller's buffer. -/
theorem iterRun_post_stop (prf : γ → Addr → V → V) (ctx : γ) (seed : V) (addr0 : Addr)
    (n stop : Nat) (hn : 1 < n) (hstop : stop < n) :
    (iterRun prf (initialize_prf_iter prf n stop seed ctx addr0).1 (stop + 1)).1.cur_node = 0 ∧
    (next_prf_iter prf
      (iterRun prf (initialize_prf_iter prf n stop seed ctx addr0).1 (stop + 1)).1).1 =
      -(((n + 1) / 3 : Nat) : Int) ∧
    (next_prf_iter prf
      (iterRun prf (initialize_prf_iter prf n stop seed ctx addr0).1 (stop + 1)).1).2.1 =
      some (evalNode prf ctx seed addr0 (stop + (n + 1) / 3)) := by
  have hmin : 0 < (n + 1) / 3 := by omega
  obtain ⟨inv, _⟩ := iterRun_inv prf ctx seed addr0 n stop hn hstop stop (le_refl _)
  have hrun := next_prf_iter_stop prf ctx seed addr0 ((n + 1) / 3) (stop + (n + 1) / 3)
    ((n + 1) / 3 + stop) _ inv (by omega)
  have hPcur : (iterRun prf (initialize_prf_iter prf n stop seed ctx addr0).1
      (stop + 1)).1.cur_node = 0 := by
    show (next_prf_iter prf
      (iterRun prf (initialize_prf_iter prf n stop seed ctx addr0).1 stop).1).2.2.1.cur_node = 0
    rw [hrun]
    norm_num
  have hPstop : (iterRun prf (initialize_prf_iter prf n stop seed ctx addr0).1
      (stop + 1)).1.stop_node = ((stop + (n + 1) / 3 : Nat) : Int) := by
    show (next_prf_iter prf
      (iterRun prf (initialize_prf_iter prf n stop seed ctx addr0).1 stop).1).2.2.1.stop_node = _
    rw [hrun]
    exact inv.hstop
  have hPmin : (iterRun prf (initialize_prf_iter prf n stop seed ctx addr0).1
      (stop + 1)).1.min_node = (n + 1) / 3 := by
    show (next_prf_iter prf
      (iterRun prf (initialize_prf_iter prf n stop seed ctx addr0).1 stop).1).2.2.1.min_node = _
    rw [hrun]
    exact inv.hmin
  have hPout : (iterRun prf (initialize_prf_iter prf n stop seed ctx addr0).1
      (stop + 1)).1.node_value
        ((iterRun prf (initialize_prf_iter prf n stop seed ctx addr0).1
          (stop + 1)).1.num_node - 1) =
      evalNode prf ctx seed addr0 ((n + 1) / 3 + stop) := by
    show (next_prf_iter prf
        (iterRun prf (initialize_prf_iter prf n stop seed ctx addr0).1 stop).1).2.2.1.node_value
      ((next_prf_iter prf
        (iterRun prf (initialize_prf_iter prf n stop seed ctx addr0).1
          stop).1).2.2.1.num_node - 1) = _
    rw [hrun]
    exact iterInv_out prf ctx seed addr0 ((n + 1) / 3) (stop + (n + 1) / 3)
      ((n + 1) / 3 + stop)
      (iterRun prf (initialize_prf_iter prf n stop seed ctx addr0).1 stop).1 inv
  have hne' : ¬ (iterRun prf (initialize_prf_iter prf n stop seed ctx addr0).1
      (stop + 1)).1.cur_node = -1 := by
    rw [hPcur]
    decide
  have hnstop' : ¬ (iterRun prf (initialize_prf_iter prf n stop seed ctx addr0).1
      (stop + 1)).1.cur_node =
      (iterRun prf (initialize_prf_iter prf n stop seed ctx addr0).1 (stop + 1)).1.stop_node := by
    rw [hPcur, hPstop]
    intro h
    omega
  have hproj : (next_prf_iter prf
      (iterRun prf (initialize_prf_iter prf n stop seed ctx addr0).1 (stop + 1)).1).1 =
      (iterRun prf (initialize_prf_iter prf n stop seed ctx addr0).1 (stop + 1)).1.cur_node -
        ((iterRun prf (initialize_prf_iter prf n stop seed ctx addr0).1
          (stop + 1)).1.min_node : Int) ∧
      (next_prf_iter prf
        (iterRun prf (initialize_prf_iter prf n stop seed ctx addr0).1 (stop + 1)).1).2.1 =
      some ((iterRun prf (initialize_prf_iter prf n stop seed ctx addr0).1
        (stop + 1)).1.node_value
          ((iterRun prf (initialize_prf_iter prf n stop seed ctx addr0).1
            (stop + 1)).1.num_node - 1)) := by
    simp only [next_prf_iter]
    rw [if_neg hne', if_neg hnstop']
    rcases Nat.lt_or_ge 0 (findDigit
        (iterRun prf (initialize_prf_iter prf n stop seed ctx addr0).1 (stop + 1)).1.count
        (iterRun prf (initialize_prf_iter prf n stop seed ctx addr0).1
          (stop + 1)).1.num_node) with h | h
    · rw [if_pos h]
      exact ⟨rfl, rfl⟩
    · rw [if_neg (by omega)]
      exact ⟨rfl, rfl⟩
  refine ⟨hPcur, ?_, ?_⟩
  · rw [hproj.1, hPcur, hPmin]
    omega
  · rw [hproj.2, hPout, Nat.add_comm ((n + 1) / 3) stop]

/-- C2: for 1 < n < 2^19 and stop < n the iterator does emit the external
indices 0, 1, …, stop in strictly increasing order, each with exactly the
`eval_single_prf_leaf` value of that leaf; but the claimed trailing end
sentinel is false of the program (code bug): the function-level
`it->cur_node++` (prf.c) also runs right after the stop branch stores −1,
so the call after the last emission finds cur_node = 0, returns
`0 − min_node` (different from −1 whenever 4 < n) and writes the stop
node's value into the caller's buffer once more instead of returning a
bare −1. -/
theorem prf_iter_enumeration_no_sentinel (prf : γ → Addr → V → V) (ctx : γ) (seed : V)
    (addr0 : Addr) (n stop : Nat) (hn : 1 < n) (hn19 : n < 2 ^ 19) (hstop : stop < n) :
    (∀ j, j ≤ stop →
      (next_prf_iter prf
        (iterRun prf (initialize_prf_iter prf n stop seed ctx addr0).1 j).1).1 = (j : Int) ∧
      (next_prf_iter prf
        (iterRun prf (initialize_prf_iter prf n stop seed ctx addr0).1 j).1).2.1 =
        some (eval_single_prf_leaf prf ctx seed j n addr0)) ∧
    (next_prf_iter prf
      (iterRun prf (initialize_prf_iter prf n stop seed ctx addr0).1 (stop + 1)).1).1 =
      -(((n + 1) / 3 : Nat) : Int) ∧
    (next_prf_iter prf
      (iterRun prf (initialize_prf_iter prf n stop seed ctx addr0).1 (stop + 1)).1).2.1 =
      some (evalNode prf ctx seed addr0 (stop + (n + 1) / 3)) ∧
    (4 < n →
      (next_prf_iter prf
        (iterRun prf (initialize_prf_iter prf n stop seed ctx addr0).1 (stop + 1)).1).1 ≠
        -1) := by
  obtain ⟨hPcur, hret, hout⟩ := iterRun_post_stop prf ctx seed addr0 n stop hn hstop
  refine ⟨?_, hret, hout, ?_⟩
  · intro j hj
    obtain ⟨inv, _⟩ := iterRun_inv prf ctx seed addr0 n stop hn hstop j hj
    rcases Nat.lt_or_ge j stop with hlt | hge
    · obtain ⟨h1, h2, _, _⟩ := next_prf_iter_step prf ctx seed addr0 ((n + 1) / 3)
        (stop + (n + 1) / 3) ((n + 1) / 3 + j) _ inv (by omega)
      refine ⟨?_, ?_⟩
      · rw [h1, show (n + 1) / 3 + j - (n + 1) / 3 = j from by omega]
      · rw [h2, eval_single_prf_leaf_eq_evalNode, Nat.add_comm j ((n + 1) / 3)]
    · have hj' : j = stop := by omega
      rw [hj'] at inv ⊢
      rw [next_prf_iter_stop prf ctx seed addr0 ((n + 1) / 3) (stop + (n + 1) / 3)
        ((n + 1) / 3 + stop) _ inv (by omega)]
      refine ⟨?_, ?_⟩
      · show (((n + 1) / 3 + stop - (n + 1) / 3 : Nat) : Int) = (stop : Int)
        rw [show (n + 1) / 3 + stop - (n + 1) / 3 = stop from by omega]
      · show some (evalNode prf ctx seed addr0 ((n + 1) / 3 + stop)) =
          some (eval_single_prf_leaf prf ctx seed stop n addr0)
        rw [eval_single_prf_leaf_eq_evalNode, Nat.add_comm stop ((n + 1) / 3)]
  · intro hn4
    rw [hret]
    have h2 : 2 ≤ (n + 1) / 3 := by omega
    intro h
    omega

/-- A concrete keyed map standing in for the masked PRF in witnesses. -/
def prfW : Unit → Addr → Nat → Nat := fun _ a v => 2 * v + a.prf_index

/-- A concrete starting address for witnesses. -/
def addrW : Addr := ⟨1, 2, 3, 4⟩

/-- Witness for C2 at n = 5, stop = 4: call 3 emits index 3 with the
`eval_single_prf_leaf` value, and the call after the last emission
returns −2, not the claimed sentinel −1. -/
theorem prf_iter_enumeration_no_sentinel_witness :
    1 < 5 ∧ 5 < 2 ^ 19 ∧ 4 < 5 ∧ 3 ≤ 4 ∧
    ((next_prf_iter prfW
        (iterRun prfW (initialize_prf_iter prfW 5 4 1 () addrW).1 3).1).1 = (3 : Int) ∧
      (next_prf_iter prfW
        (iterRun prfW (initialize_prf_iter prfW 5 4 1 () addrW).1 3).1).2.1 =
        some (eval_single_prf_leaf prfW () 1 3 5 addrW)) ∧
    (next_prf_iter prfW
      (iterRun prfW (initialize_prf_iter prfW 5 4 1 () addrW).1 5).1).1 =
      -(((5 + 1) / 3 : Nat) : Int) ∧
    (next_prf_iter prfW
      (iterRun prfW (initialize_prf_iter prfW 5 4 1 () addrW).1 5).1).1 ≠ -1 := by
  have h := prf_iter_enumeration_no_sentinel prfW () 1 addrW 5 4 (by decide) (by decide)
    (by decide)
  exact ⟨by decide, by decide, by decide, by decide, h.1 3 (by decide), h.2.1,
    h.2.2.2 (by decide)⟩

/-- C10: the claimed stable end-sentinel state does not exist in the code
(code bug): the function-level `it->cur_node++` (prf.c) runs right after
the stop branch stores −1, so after the final emission the iterator holds
cur_node = 0, not −1 — and the next call, far from returning −1 while
leaving everything untouched, again writes the caller's output buffer
(the stop node's value once more) and returns `0 − min_node`. -/
theorem prf_iter_sentinel_never_persists (prf : γ → Addr → V → V) (ctx : γ) (seed : V)
    (addr0 : Addr) (n stop : Nat) (hn : 1 < n) (hstop : stop < n) :
    (iterRun prf (initialize_prf_iter prf n stop seed ctx addr0).1 (stop + 1)).1.cur_node = 0 ∧
    (next_prf_iter prf
      (iterRun prf (initialize_prf_iter prf n stop seed ctx addr0).1 (stop + 1)).1).1 =
      -(((n + 1) / 3 : Nat) : Int) ∧
    (next_prf_iter prf
      (iterRun prf (initialize_prf_iter prf n stop seed ctx addr0).1 (stop + 1)).1).2.1 ≠
      none := by
  obtain ⟨hPcur, hret, hout⟩ := iterRun_post_stop prf ctx seed addr0 n stop hn hstop
  refine ⟨hPcur, hret, ?_⟩
  rw [hout]
  intro h
  exact Option.noConfusion h

/-- Witness for C10 at n = 5, stop = 4: after the last emission the
iterator sits at cur_node = 0 and the next call still writes the buffer. -/
theorem prf_iter_sentinel_never_persists_witness :
    1 < 5 ∧ 4 < 5 ∧
    (iterRun prfW (initialize_prf_iter prfW 5 4 1 () addrW).1 5).1.cur_node = 0 ∧
    (next_prf_iter prfW
      (iterRun prfW (initialize_prf_iter prfW 5 4 1 () addrW).1 5).1).2.1 ≠ none := by
  have h := prf_iter_sentinel_never_persists prfW () 1 addrW 5 4 (by decide) (by decide)
  exact ⟨by decide, by decide, h.1, h.2.2⟩

/-- The node numbers passed to `prf_hash_function` while the iterator
produces its output: initialization and the stop+1 emitting calls.  (The
code has no quiescent state after the last emission — the function-level
`cur_node++` moves the iterator past the stop node, see the C2/C10
theorems — so the trace is scoped to the calls that emit the leaves.) -/
def prfTraceFull (prf : γ → Addr → V → V) (ctx : γ) (seed : V) (addr0 : Addr)
    (n stop : Nat) : List Nat :=
  (initialize_prf_iter prf n stop seed ctx addr0).2 ++
  (iterRun prf (initialize_prf_iter prf n stop seed ctx addr0).1 (stop + 1)).2

/-- The final emitting call (the stop branch) makes no PRF calls, so the
full trace is already complete after `stop` advancing calls. -/
theorem prfTraceFull_eq (prf : γ → Addr → V → V) (ctx : γ) (seed : V) (addr0 : Addr)
    (n stop : Nat) (hn : 1 < n) (hstop : stop < n) :
    prfTraceFull prf ctx seed addr0 n stop =
      (initialize_prf_iter prf n stop seed ctx addr0).2 ++
      (iterRun prf (initialize_prf_iter prf n stop seed ctx addr0).1 stop).2 := by
  obtain ⟨inv, _⟩ := iterRun_inv prf ctx seed addr0 n stop hn hstop stop (le_refl _)
  have hrun := next_prf_iter_stop prf ctx seed addr0 ((n + 1) / 3) (stop + (n + 1) / 3)
    ((n + 1) / 3 + stop) _ inv (by omega)
  have e1 : (iterRun prf (initialize_prf_iter prf n stop seed ctx addr0).1 (stop + 1)).2 =
      (iterRun prf (initialize_prf_iter prf n stop seed ctx addr0).1 stop).2 := by
    show (iterRun prf (initialize_prf_iter prf n stop seed ctx addr0).1 stop).2 ++
      (next_prf_iter prf
        (iterRun prf (initialize_prf_iter prf n stop seed ctx addr0).1 stop).1).2.2.2 = _
    rw [hrun]
    simp
  rw [prfTraceFull, e1]

/-- C6 (amended): during a full iteration (stop = n−1, i.e.
initialization plus the n emitting calls) the set of node numbers passed
to `prf_hash_function` is exactly the set of non-root nodes lying on the
root path of one of the emitted external leaves (internal node numbers
min_node .. min_node+n−1).  Two restrictions against the original claim:
the once-per-node count fails because a depth wrap recomputes the
left-spine nodes (see the counterexample), and the trace is scoped to the
emitting calls because the code has no stable state after the last
emission (the function-level `cur_node++`, see the C2/C10 theorems)
whereupon further calls would hash nodes off every emitted leaf's path. -/
theorem prf_iter_full_trace_nodes (prf : γ → Addr → V → V) (ctx : γ) (seed : V)
    (addr0 : Addr) (n : Nat) (hn : 1 < n) :
    ∀ x, x ∈ prfTraceFull prf ctx seed addr0 n (n - 1) ↔
      ∃ u, (n + 1) / 3 ≤ u ∧ u ≤ (n + 1) / 3 + (n - 1) ∧ x ∈ pathToRoot u := by
  intro x
  rw [prfTraceFull_eq prf ctx seed addr0 n (n - 1) hn (by omega)]
  exact (iterRun_inv prf ctx seed addr0 n (n - 1) hn (by omega) (n - 1) (le_refl _)).2 x

/-- Witness for the amended C6 at n = 5, x = 1. -/
theorem prf_iter_full_trace_nodes_witness :
    1 < 5 ∧ ((1 : Nat) ∈ prfTraceFull prfW () 1 addrW 5 (5 - 1) ↔
      ∃ u, (5 + 1) / 3 ≤ u ∧ u ≤ (5 + 1) / 3 + (5 - 1) ∧ (1 : Nat) ∈ pathToRoot u) :=
  ⟨by decide, prf_iter_full_trace_nodes prfW () 1 addrW 5 (by decide) 1⟩

/-- C6 counterexample: in the full iteration over n = 17 leaves the node
number 1 is passed to `prf_hash_function` twice — once while initialising
the path to the first leaf (node 6) and again when the depth wrap from
node 20 to node 21 rebuilds the left spine — so the claim that no node is
ever recomputed (and hence that the number of invocations equals the
number of non-root nodes) is false. -/
theorem prf_iter_trace_repetition_counterexample :
    ¬ (prfTraceFull prfW () 1 addrW 17 16).Nodup := by
  have hp21 : pathD ((17 + 1) / 3 + 14 + 1) = [0, 1, 5, 21] := by
    show pathD 21 = [0, 1, 5, 21]
    rw [pathD_pos 21 (by decide), show (21 - 1) / 4 = 5 from by decide,
      pathD_pos 5 (by decide), show (5 - 1) / 4 = 1 from by decide,
      pathD_pos 1 (by decide), show (1 - 1) / 4 = 0 from by decide, pathD_zero]
    rfl
  have hp20 : pathD ((17 + 1) / 3 + 14) = [0, 4, 20] := by
    show pathD 20 = [0, 4, 20]
    rw [pathD_pos 20 (by decide), show (20 - 1) / 4 = 4 from by decide,
      pathD_pos 4 (by decide), show (4 - 1) / 4 = 0 from by decide, pathD_zero]
    rfl
  obtain ⟨inv14, _⟩ := iterRun_inv prfW () 1 addrW 17 16 (by decide) (by decide) 14 (by decide)
  obtain ⟨_, _, _, m, hm1, hm2, htrEq, htake⟩ :=
    next_prf_iter_step prfW () 1 addrW ((17 + 1) / 3) (16 + (17 + 1) / 3)
      ((17 + 1) / 3 + 14) _ inv14 (by decide)
  have hm : m = 1 := by
    by_contra hne
    obtain ⟨k, rfl⟩ : ∃ k, m = k + 2 := ⟨m - 2, by omega⟩
    rw [hp21, hp20] at htake
    simp [List.take_succ_cons] at htake
  rw [hm] at htrEq
  have htr1 : (next_prf_iter prfW
      (iterRun prfW (initialize_prf_iter prfW 17 16 1 () addrW).1 14).1).2.2.2 =
      [1, 5, 21] := by
    rw [htrEq, hp21]
    rfl
  have e15 : (iterRun prfW (initialize_prf_iter prfW 17 16 1 () addrW).1 15).2 =
      (iterRun prfW (initialize_prf_iter prfW 17 16 1 () addrW).1 14).2 ++ [1, 5, 21] := by
    show (iterRun prfW (initialize_prf_iter prfW 17 16 1 () addrW).1 14).2 ++
      (next_prf_iter prfW
        (iterRun prfW (initialize_prf_iter prfW 17 16 1 () addrW).1 14).1).2.2.2 = _
    rw [htr1]
  have h1run : (1 : Nat) ∈ (iterRun prfW (initialize_prf_iter prfW 17 16 1 () addrW).1 16).2 := by
    show (1 : Nat) ∈ (iterRun prfW (initialize_prf_iter prfW 17 16 1 () addrW).1 15).2 ++
      (next_prf_iter prfW
        (iterRun prfW (initialize_prf_iter prfW 17 16 1 () addrW).1 15).1).2.2.2
    refine List.mem_append_left _ ?_
    rw [e15]
    exact List.mem_append_right _ (by decide)
  have h1init : (1 : Nat) ∈ (initialize_prf_iter prfW 17 16 1 () addrW).2 := by
    obtain ⟨_, htr0⟩ := initialize_prf_iter_spec prfW () 1 addrW 17 16 (by decide)
    rw [htr0 1]
    show (1 : Nat) ∈ pathToRoot 6
    rw [pathToRoot_pos 6 (by decide), show (6 - 1) / 4 = 1 from by decide,
      pathToRoot_pos 1 (by decide), show (1 - 1) / 4 = 0 from by decide, pathToRoot_zero]
    decide
  rw [prfTraceFull_eq prfW () 1 addrW 17 16 (by decide) (by decide)]
  intro hnd
  rcases List.nodup_append.mp hnd with ⟨_, _, hdisj⟩
  exact hdisj h1init h1run

/-- Modelled from the spec: the compile-time parameter-set constants used
by `initialize_prf_key` (`params.h` is outside the given sources): the
hypertree full height, the per-Merkle-tree height, the number of hypertree
layers, and the WOTS chain count. -/
structure SpxParams where
  full_height : Nat
  tree_height : Nat
  d : Nat
  wots_len : Nat
deriving DecidableEq

/-- Modelled from the spec: the `slh-dsa-shake-128s` parameter set named in
the spec's end-to-end scenarios (full height 63, tree height 9, 7 layers,
35 WOTS chains). -/
def p128s : SpxParams := ⟨63, 9, 7, 35⟩

/-- Modelled from the spec: the PRF_MERKLE address-type tag; its numeric
value is immaterial to the claims below. -/
def SPX_ADDR_TYPE_PRF_MERKLE : Nat := 7

/-- Embedding of `shiftr` from prf.c: right shift that yields 0 for shift
amounts of 64 or more (the C expression would be undefined there). -/
def shiftr (val : Nat) (shift : Int) : Nat :=
  if 64 ≤ shift then 0 else val >>> shift.toNat

/-- Embedding of the level loop of `initialize_prf_key`: iterating
`level = d−1, …, 0` with `tree_shift` starting at
`full_height − tree_height` and decreasing by `tree_height` per level, it
records for each level the argument tuple
(level, addr, external leaf index, n_leaves) that the loop body passes to
`eval_single_prf_leaf`: the address is a zeroed address with type
PRF_MERKLE, layer = level and tree index `shiftr tree tree_shift`; the
external index is `idx_leaf` at level 0 and otherwise the child Merkle
tree's index within its parent
(`(uint32_t)(tree >> (tree_shift − tree_height))` masked to tree_height
bits), in both cases plus the offset `wots_len · 2^tree_height`;
`n_leaves` is `(wots_len + 1) · 2^tree_height`. -/
def prf_key_loop (p : SpxParams) (tree idx_leaf : Nat) :
    Nat → Int → List (Nat × Addr × Nat × Nat)
  | 0, _ => []
  | l + 1, ts =>
    (l,
     set_tree_addr (set_layer_addr (set_type ⟨0, 0, 0, 0⟩ SPX_ADDR_TYPE_PRF_MERKLE) l)
       (shiftr tree ts),
     (if l = 0 then idx_leaf
      else ((tree >>> (ts - (p.tree_height : Int)).toNat) % 2 ^ 32) &&&
        ((1 <<< p.tree_height) - 1)) + p.wots_len * (1 <<< p.tree_height),
     (p.wots_len + 1) * (1 <<< p.tree_height)) ::
    prf_key_loop p tree idx_leaf l (ts - (p.tree_height : Int))

/-- The per-level `eval_single_prf_leaf` call descriptors made by
`initialize_prf_key`, in execution order (level d−1 first). -/
def initialize_prf_key_calls (p : SpxParams) (tree idx_leaf : Nat) :
    List (Nat × Addr × Nat × Nat) :=
  prf_key_loop p tree idx_leaf p.d ((p.full_height : Int) - (p.tree_height : Int))

/-- Modelled from the spec's words (C3): the per-level address with the
spec's tree-shift formula `FULL_HEIGHT − (level+1)·TREE_HEIGHT`. -/
def spec_prf_merkle_addr (p : SpxParams) (tree level : Nat) : Addr :=
  set_tree_addr (set_layer_addr (set_type ⟨0, 0, 0, 0⟩ SPX_ADDR_TYPE_PRF_MERKLE) level)
    (shiftr tree ((p.full_height : Int) - ((level : Int) + 1) * (p.tree_height : Int)))

/-- C3 counterexample: for the `slh-dsa-shake-128s` parameters with
tree = 1, the first loop iteration of `initialize_prf_key` (level 6) uses
tree_shift = FULL_HEIGHT − TREE_HEIGHT·(D − level) = 54, so tree_addr is
1 >> 54 = 0, while the spec's formula FULL_HEIGHT − (level+1)·TREE_HEIGHT
gives shift 0 and tree_addr 1; the two addresses differ.  Moreover the
index passed to `eval_single_prf_leaf` is the child index plus the offset
SPX_WOTS_LEN·2^TREE_HEIGHT = 17920, not the bare child-tree index (0
here). -/
theorem prf_key_tree_shift_counterexample :
    ((initialize_prf_key_calls p128s 1 0).getD 0 (0, ⟨0, 0, 0, 0⟩, 0, 0)).1 = 6 ∧
    ((initialize_prf_key_calls p128s 1 0).getD 0 (0, ⟨0, 0, 0, 0⟩, 0, 0)).2.1.tree_addr = 0 ∧
    (spec_prf_merkle_addr p128s 1 6).tree_addr = 1 ∧
    ((initialize_prf_key_calls p128s 1 0).getD 0 (0, ⟨0, 0, 0, 0⟩, 0, 0)).2.1 ≠
      spec_prf_merkle_addr p128s 1 6 ∧
    ((initialize_prf_key_calls p128s 1 0).getD 0 (0, ⟨0, 0, 0, 0⟩, 0, 0)).2.2.1 = 17920 ∧
    ((initialize_prf_key_calls p128s 1 0).getD 0 (0, ⟨0, 0, 0, 0⟩, 0, 0)).2.2.1 ≠ 0 := by
  decide

theorem prf_key_loop_getD (p : SpxParams) (tree idx_leaf : Nat) :
    ∀ (l : Nat) (ts : Int) (j : Nat), j < l →
      (prf_key_loop p tree idx_leaf l ts).getD j (0, ⟨0, 0, 0, 0⟩, 0, 0) =
        (l - 1 - j,
         set_tree_addr (set_layer_addr (set_type ⟨0, 0, 0, 0⟩ SPX_ADDR_TYPE_PRF_MERKLE)
           (l - 1 - j)) (shiftr tree (ts - (p.tree_height : Int) * (j : Int))),
         (if l - 1 - j = 0 then idx_leaf
          else ((tree >>> (ts - (p.tree_height : Int) * (j : Int) -
              (p.tree_height : Int)).toNat) % 2 ^ 32) &&& ((1 <<< p.tree_height) - 1)) +
           p.wots_len * (1 <<< p.tree_height),
         (p.wots_len + 1) * (1 <<< p.tree_height)) := by
  intro l
  induction l with
  | zero =>
    intro ts j hj
    omega
  | succ l ih =>
    intro ts j hj
    cases j with
    | zero =>
      simp only [prf_key_loop, List.getD_cons_zero]
      norm_num
    | succ j =>
      simp only [prf_key_loop, List.getD_cons_succ]
      rw [ih (ts - (p.tree_height : Int)) j (by omega)]
      have h1 : l - 1 - j = l + 1 - 1 - (j + 1) := by omega
      have h2 : ts - (p.tree_height : Int) - (p.tree_height : Int) * (j : Int) =
          ts - (p.tree_height : Int) * (((j + 1 : Nat)) : Int) := by
        push_cast
        ring
      rw [h1, h2]

/-- C3 (amended): in `initialize_prf_key`, the `j`-th `eval_single_prf_leaf`
call (j = 0 first) is at level = d−1−j and uses an address with type
PRF_MERKLE, layer = level, and
tree_addr = `shiftr tree (FULL_HEIGHT − TREE_HEIGHT·(D − level))` — the
level direction of the spec's shift formula is reversed — while the
external leaf index passed is `idx_leaf` (level 0) or the child Merkle
tree's index within its parent (`tree` shifted right by the tree shift
minus TREE_HEIGHT, truncated to 32 bits and masked to TREE_HEIGHT bits),
in both cases plus the offset `wots_len · 2^TREE_HEIGHT`, and the leaf
count is `(wots_len + 1) · 2^TREE_HEIGHT`. -/
theorem prf_key_level_parameters (p : SpxParams) (tree idx_leaf j : Nat) (hj : j < p.d) :
    (initialize_prf_key_calls p tree idx_leaf).getD j (0, ⟨0, 0, 0, 0⟩, 0, 0) =
      (p.d - 1 - j,
       set_tree_addr (set_layer_addr (set_type ⟨0, 0, 0, 0⟩ SPX_ADDR_TYPE_PRF_MERKLE)
         (p.d - 1 - j))
         (shiftr tree ((p.full_height : Int) -
           (p.tree_height : Int) * ((p.d : Int) - ((p.d - 1 - j : Nat) : Int)))),
       (if p.d - 1 - j = 0 then idx_leaf
        else ((tree >>> ((p.full_height : Int) -
            (p.tree_height : Int) * ((p.d : Int) - ((p.d - 1 - j : Nat) : Int)) -
            (p.tree_height : Int)).toNat) % 2 ^ 32) &&& ((1 <<< p.tree_height) - 1)) +
         p.wots_len * (1 <<< p.tree_height),
       (p.wots_len + 1) * (1 <<< p.tree_height)) := by
  rw [initialize_prf_key_calls, prf_key_loop_getD p tree idx_leaf p.d
    ((p.full_height : Int) - (p.tree_height : Int)) j hj]
  have hlev : ((p.d - 1 - j : Nat) : Int) = (p.d : Int) - 1 - (j : Int) := by omega
  rw [hlev, show (p.full_height : Int) - (p.tree_height : Int) -
      (p.tree_height : Int) * (j : Int) =
      (p.full_height : Int) - (p.tree_height : Int) *
        ((p.d : Int) - ((p.d : Int) - 1 - (j : Int))) from by ring]

/-- Witness for the amended C3 at the 128s parameters, tree = 1,
idx_leaf = 5, first call (j = 0, level 6). -/
theorem prf_key_level_parameters_witness :
    0 < p128s.d ∧
    (initialize_prf_key_calls p128s 1 5).getD 0 (0, ⟨0, 0, 0, 0⟩, 0, 0) =
      (p128s.d - 1 - 0,
       set_tree_addr (set_layer_addr (set_type ⟨0, 0, 0, 0⟩ SPX_ADDR_TYPE_PRF_MERKLE)
         (p128s.d - 1 - 0))
         (shiftr 1 ((p128s.full_height : Int) -
           (p128s.tree_height : Int) * ((p128s.d : Int) - ((p128s.d - 1 - 0 : Nat) : Int)))),
       (if p128s.d - 1 - 0 = 0 then 5
        else ((1 >>> ((p128s.full_height : Int) -
            (p128s.tree_height : Int) * ((p128s.d : Int) - ((p128s.d - 1 - 0 : Nat) : Int)) -
            (p128s.tree_height : Int)).toNat) % 2 ^ 32) &&& ((1 <<< p128s.tree_height) - 1)) +
         p128s.wots_len * (1 <<< p128s.tree_height),
       (p128s.wots_len + 1) * (1 <<< p128s.tree_height)) :=
  ⟨by decide, prf_key_level_parameters p128s 1 5 0 (by decide)⟩
